import Mathlib

/-!  Verification development for the Reddit incident harvester
     (src/reddit-extractor/reddit_extractor.py).

     Shallow embedding conventions:
     - Python strings are Lean `String` values (ASCII-faithful; `str.lower`
       and `\b`, `\s`, `\w` regex classes are modelled on the ASCII range,
       which covers the whole fixed vocabulary and all pattern literals).
     - Python numbers are modelled as `ℚ` (exact arithmetic; the scoring
       pipeline only multiplies and adds decimal constants and rounds to
       2 decimal places, where rational arithmetic agrees with the
       observable float behaviour on integer engagement inputs).
     - JSON payloads returned by the fetch layer are an inductive `JVal`.
     - Fallible Python operations (attribute errors, type errors, float
       conversion) return `Except String`.
-/

namespace RedditExtractor

/-- JSON-like value, the shape of anything `r.json()` can return. -/
inductive JVal : Type
  | null : JVal
  | bool : Bool → JVal
  | num  : ℚ → JVal
  | str  : String → JVal
  | arr  : List JVal → JVal
  | obj  : List (String × JVal) → JVal

/-- Python truthiness of a JSON value. -/
def truthy : JVal → Bool
  | .null => false
  | .bool b => b
  | .num q => decide (q ≠ 0)
  | .str s => decide (s ≠ "")
  | .arr l => !l.isEmpty
  | .obj l => !l.isEmpty

/-- Python `v or w`. -/
def pyOr (v w : JVal) : JVal := if truthy v then v else w

/-- First-match association lookup with a default, backing `dict.get`. -/
def lookField : List (String × JVal) → String → JVal → JVal
  | [], _, d => d
  | (k, v) :: rest, key, d => if k = key then v else lookField rest key d

/-- Python `receiver.get(key, default)`: succeeds on dicts, raises
    AttributeError on any other receiver. -/
def jGetD : JVal → String → JVal → Except String JVal
  | .obj l, key, d => .ok (lookField l key d)
  | _, _, _ => .error "AttributeError: get on a non-dict"

/-- Python `float(x)` restricted to the value kinds the harvester feeds it:
    numbers convert to themselves, bools convert to 0 or 1, every other
    kind is modelled as a conversion error.  (Numeric strings, which
    Python would parse, are not modelled; no claim depends on them.) -/
def pyFloat : JVal → Except String ℚ
  | .num q => .ok q
  | .bool b => .ok (if b then 1 else 0)
  | _ => .error "ValueError: not a number"

/-- ASCII lowercasing, modelling `str.lower` on the ASCII texts in scope. -/
def lowerStr (s : String) : String := String.mk (s.data.map Char.toLower)

/-- Boolean list-`isPrefix` test used by the substring model. -/
def isPrefixList : List Char → List Char → Bool
  | [], _ => true
  | _ :: _, [] => false
  | a :: as, b :: bs => a == b && isPrefixList as bs

/-- Substring scan: does `needle` occur contiguously inside the list? -/
def substrList (needle : List Char) : List Char → Bool
  | [] => isPrefixList needle []
  | c :: cs => isPrefixList needle (c :: cs) || substrList needle cs

/-- Python `needle in hay` for strings. -/
def strContains (hay needle : String) : Bool := substrList needle.data hay.data

/-- Code-point lexicographic order on character lists, as Python compares
    strings. -/
def listLe : List Char → List Char → Bool
  | [], _ => true
  | _ :: _, [] => false
  | a :: as, b :: bs => if a = b then listLe as bs else decide (a.val < b.val)

/-- Python string comparison `s <= t`. -/
def strLe (s t : String) : Bool := listLe s.data t.data

/-- Stable insertion into a `strLe`-sorted list, backing `sorted(...)`. -/
def insertStr (x : String) : List String → List String
  | [] => [x]
  | y :: ys => if strLe x y then x :: y :: ys else y :: insertStr x ys

/-- Python `sorted` on a list of strings. -/
def sortStrs : List String → List String
  | [] => []
  | x :: xs => insertStr x (sortStrs xs)

/-- Python `sep.join(parts)`. -/
def joinSep (sep : String) : List String → String
  | [] => ""
  | [x] => x
  | x :: y :: rest => x ++ sep ++ joinSep sep (y :: rest)

/-- PLACE_ANCHORS from the source. -/
def PLACE_ANCHORS : List String :=
  ["Alexandria","Del Ray","Old Town","Potomac Yard","Eisenhower","King St","Duke St",
   "Van Dorn","Seminary","Beauregard","Landmark","Cameron","Slaters","Huntington",
   "Fairfax County","Arlandria","Rosemont","North Ridge","West End"]

/-- KEYWORDS from the source: incident terms plus the place anchors. -/
def KEYWORDS : List String :=
  ["fire","smoke","explosion","gas leak","evacuation","hazmat","shelter in place",
   "shooting","shots fired","stabbing","assault",
   "accident","crash","pileup","hit and run",
   "flood","flash flood","water main","sinkhole",
   "power outage","downed lines","transformer",
   "road closed","bridge closed","police activity","sirens","helicopter","medevac"]
  ++ PLACE_ANCHORS

/-- contains_keywords(text, kws): the sorted set of vocabulary terms whose
    lowercase form occurs as a substring of the lowercased text. -/
def contains_keywords (text : String) (kws : List String) : List String :=
  sortStrs ((kws.filter (fun k => strContains (lowerStr text) (lowerStr k))).dedup)

/-- One token of a severe-incident regex alternative: a literal chunk or a
    `\s+` whitespace run. -/
inductive Tok : Type
  | lit : String → Tok
  | ws  : Tok

/-- Python `\w` on the ASCII range. -/
def isWordChar (c : Char) : Bool := c.isAlpha || c.isDigit || c == '_'

/-- Python `\s` on the ASCII range. -/
def isSpaceChar (c : Char) : Bool :=
  c == ' ' || c == '\t' || c == '\n' || c == '\r' || c == '\x0b' || c == '\x0c'

/-- Drop `pre` from the front of `rest` if it is literally there. -/
def dropPrefixQ : List Char → List Char → Option (List Char)
  | [], rest => some rest
  | _ :: _, [] => none
  | a :: as, b :: bs => if a == b then dropPrefixQ as bs else none

/-- Match a token sequence at the start of `rest`, returning the suffix
    left over.  `\s+` is matched greedily, which is exact here because in
    every pattern a whitespace run is followed by a letter. -/
def matchToks : List Tok → List Char → Option (List Char)
  | [], rest => some rest
  | .lit s :: ts, rest =>
      match dropPrefixQ s.data rest with
      | some r => matchToks ts r
      | none => none
  | .ws :: ts, rest =>
      if (rest.takeWhile isSpaceChar).isEmpty then none
      else matchToks ts (rest.dropWhile isSpaceChar)

/-- The `\b` test before a match.  Every alternative in scope begins with a
    word character, so the boundary holds exactly when the preceding
    character (if any) is not a word character. -/
def boundaryOk : Option Char → Bool
  | none => true
  | some c => !isWordChar c

/-- The `\b` test after a match.  Every alternative in scope ends with a
    word character, so the boundary holds exactly when the next character
    (if any) is not a word character. -/
def afterOk : List Char → Bool
  | [] => true
  | c :: _ => !isWordChar c

/-- Match one alternative at the current position, with `\b` at both ends. -/
def matchAltAt (a : List Tok) (prev : Option Char) (rest : List Char) : Bool :=
  boundaryOk prev &&
    match matchToks a rest with
    | none => false
    | some r => afterOk r

/-- Scan every position of the text for a match of one alternative,
    tracking the preceding character for the boundary test. -/
def searchAlt (a : List Tok) : Option Char → List Char → Bool
  | prev, [] => matchAltAt a prev []
  | prev, c :: cs => matchAltAt a prev (c :: cs) || searchAlt a (some c) cs

/-- `re.search` of an alternation `\b(a1|a2|...)\b` over a string. -/
def searchPattern (alts : List (List Tok)) (s : String) : Bool :=
  alts.any (fun a => searchAlt a none s.data)

/-- HIGH_PRIORITY_PATTERNS from the source, as token alternations. -/
def HIGH_PRIORITY_PATTERNS : List (List (List Tok)) :=
  [ [[.lit "shooting"], [.lit "shots", .ws, .lit "fired"], [.lit "stabbing"],
     [.lit "explosion"], [.lit "hazmat"], [.lit "shelter", .ws, .lit "in", .ws, .lit "place"]],
    [[.lit "major", .ws, .lit "accident"], [.lit "multi-vehicle", .ws, .lit "crash"],
     [.lit "pileup"]],
    [[.lit "active", .ws, .lit "police", .ws, .lit "activity"],
     [.lit "police", .ws, .lit "blocked"], [.lit "crime", .ws, .lit "scene"]],
    [[.lit "large", .ws, .lit "fire"], [.lit "structure", .ws, .lit "fire"],
     [.lit "apartment", .ws, .lit "fire"]] ]

/-- high_priority(text): lowercase the text, then test every severe
    pattern. -/
def high_priority (text : String) : Bool :=
  HIGH_PRIORITY_PATTERNS.any (fun p => searchPattern p (lowerStr text))

/-- The `re.search(r"\balexandria\b", text, re.I)` test in score_post,
    modelled as the case-sensitive search on the lowercased text. -/
def alexWord (text : String) : Bool :=
  searchPattern [[.lit "alexandria"]] (lowerStr text)

/-- Round-half-to-even to an integer, as Python rounds. -/
def rhe (q : ℚ) : ℤ :=
  if q - ⌊q⌋ < 1/2 then ⌊q⌋
  else if 1/2 < q - ⌊q⌋ then ⌊q⌋ + 1
  else if ⌊q⌋ % 2 = 0 then ⌊q⌋ else ⌊q⌋ + 1

/-- Python `round(x, 2)` modelled exactly on rationals. -/
def round2 (q : ℚ) : ℚ := (rhe (q * 100) : ℚ) / 100

/-- score_post(title, body, score, num_comments) from the source.  The
    engagement inputs are rationals because the payload model is numeric;
    the `or 0` guards in the source are numeric identities there. -/
def score_post (title body : String) (score num_comments : ℚ) : ℚ :=
  let text := title ++ "\n" ++ body
  let s : ℚ := ((min 10 (contains_keywords text KEYWORDS).length : ℕ) : ℚ) * 1.5
  let s := s + score * 0.2 + num_comments * 0.1
  let s := if high_priority text then s + 10 else s
  let s := if alexWord text then s + 3 else s
  round2 s

/-- Modelled from the claim wording for C1: the same score written as one
    sum of the keyword term, the engagement terms and the two flat
    bonuses, with the total rounded to 2 decimal places. -/
def spec_score (title body : String) (score num_comments : ℚ) : ℚ :=
  let text := title ++ "\n" ++ body
  round2 (((min 10 (contains_keywords text KEYWORDS).length : ℕ) : ℚ) * 1.5
    + score * 0.2 + num_comments * 0.1
    + (if high_priority text then (10 : ℚ) else 0)
    + (if alexWord text then (3 : ℚ) else 0))

/-- Round-half-even commutes with adding an even integer. -/
theorem rhe_add_even (q : ℚ) (n : ℤ) (hn : n % 2 = 0) : rhe (q + (n : ℚ)) = rhe q + n := by
  unfold rhe
  rw [show q + (n : ℚ) = q + (n : ℤ) from by norm_cast, Int.floor_add_int]
  have h1 : q + ((n : ℤ) : ℚ) - ((⌊q⌋ + n : ℤ) : ℚ) = q - ⌊q⌋ := by push_cast; ring
  have h2 : (⌊q⌋ + n) % 2 = ⌊q⌋ % 2 := by omega
  rw [h1, h2]
  split_ifs <;> ring

/-- Rounding to two decimals commutes with adding 13. -/
theorem round2_add_13 (q : ℚ) : round2 (q + 13) = round2 q + 13 := by
  unfold round2
  rw [show (q + 13) * 100 = q * 100 + ((1300 : ℤ) : ℚ) from by push_cast; ring,
    rhe_add_even _ 1300 (by norm_num)]
  push_cast [Int.cast_add]
  ring

/-- C1: for every title, body, upvote score and comment count, the relevance
    score equals min(10, matched keywords in title+newline+body) times 1.5,
    plus upvote times 0.2, plus comments times 0.1, plus a flat 10 when
    high-priority, plus a flat 3 when the text contains the place name as a
    whole word, the total rounded to 2 decimal places. -/
theorem claim_C1_score_formula (title body : String) (score num_comments : ℚ) :
    score_post title body score num_comments = spec_score title body score num_comments := by
  unfold score_post spec_score
  cases hh : high_priority (title ++ "\n" ++ body) <;>
    cases ha : alexWord (title ++ "\n" ++ body) <;>
      simp only [hh, ha, if_true, if_false, Bool.false_eq_true] <;>
      exact congrArg round2 (by ring)

/-- C6 counterexample: two texts agreeing in matched-keyword count where the
    first is high-priority with the whole-word place name and the second is
    neither, yet the score gap is not 12. -/
theorem claim_C6_counterexample :
    (contains_keywords ("shooting alexandria" ++ "\n" ++ "") KEYWORDS).length
      = (contains_keywords ("fire smoke" ++ "\n" ++ "") KEYWORDS).length
    ∧ high_priority ("shooting alexandria" ++ "\n" ++ "") = true
    ∧ alexWord ("shooting alexandria" ++ "\n" ++ "") = true
    ∧ high_priority ("fire smoke" ++ "\n" ++ "") = false
    ∧ alexWord ("fire smoke" ++ "\n" ++ "") = false
    ∧ score_post "shooting alexandria" "" 0 0 - score_post "fire smoke" "" 0 0 ≠ 12 := by
  refine ⟨by decide, by decide, by decide, by decide, by decide, by with_unfolding_all decide⟩

/-- C6 amended: with equal matched-keyword counts, upvotes and comments, a
    text that is both high-priority and place-name matching scores exactly
    13 higher (the bonuses are +10 and +3) than one that is neither. -/
theorem claim_C6_bonus_gap (t1 b1 t2 b2 : String) (u c : ℚ)
    (hk : (contains_keywords (t1 ++ "\n" ++ b1) KEYWORDS).length
        = (contains_keywords (t2 ++ "\n" ++ b2) KEYWORDS).length)
    (h1 : high_priority (t1 ++ "\n" ++ b1) = true)
    (h2 : alexWord (t1 ++ "\n" ++ b1) = true)
    (h3 : high_priority (t2 ++ "\n" ++ b2) = false)
    (h4 : alexWord (t2 ++ "\n" ++ b2) = false) :
    score_post t1 b1 u c = score_post t2 b2 u c + 13 := by
  unfold score_post
  simp only [h1, h2, h3, h4, hk, if_true, if_false, Bool.false_eq_true]
  rw [show ((min 10 (contains_keywords (t2 ++ "\n" ++ b2) KEYWORDS).length : ℕ) : ℚ) * 1.5
        + u * 0.2 + c * 0.1 + 10 + 3
      = ((min 10 (contains_keywords (t2 ++ "\n" ++ b2) KEYWORDS).length : ℕ) : ℚ) * 1.5
        + u * 0.2 + c * 0.1 + 13 from by ring]
  exact round2_add_13 _

/-- C6 witness: the amended gap theorem at concrete inputs. -/
theorem claim_C6_witness :
    score_post "shooting alexandria" "" 2 5 = score_post "fire smoke" "" 2 5 + 13 :=
  claim_C6_bonus_gap "shooting alexandria" "" "fire smoke" "" 2 5
    (by decide) (by decide) (by decide) (by decide) (by decide)

/-- One HTTP outcome for a get_json attempt: a 429 rate-limit signal, any
    other request failure (network error, timeout, non-2xx status, or a
    body that fails to parse as JSON), or a parsed 2xx response. -/
inductive HResp : Type
  | rate : HResp
  | fail : HResp
  | ok   : JVal → HResp

/-- Whether an outcome is a success. -/
def isOkResp : HResp → Bool
  | .ok _ => true
  | _ => false

/-- Whether an outcome is a transient (non-429) failure. -/
def isFailResp : HResp → Bool
  | .fail => true
  | _ => false

/-- get_json from the source, over a stream of attempt outcomes.  `tries`
    is the single counter the source keeps: it is incremented on a 429
    (which then always retries) and on any other failure (which abandons
    with an empty dict once `tries` exceeds 3).  `fuel` bounds the number
    of attempts modelled; `none` means the call is still retrying. -/
def get_json_aux (resp : ℕ → HResp) : ℕ → ℕ → ℕ → Option JVal
  | 0, _, _ => none
  | fuel + 1, i, tries =>
    match resp i with
    | .ok v => some v
    | .rate => get_json_aux resp fuel (i + 1) (tries + 1)
    | .fail =>
        if tries + 1 > 3 then some (JVal.obj [])
        else get_json_aux resp fuel (i + 1) (tries + 1)

/-- The outcome stream refuting C5: three 429s, then one transient
    failure, then successes. -/
def respC5 : ℕ → HResp
  | 0 => .rate
  | 1 => .rate
  | 2 => .rate
  | 3 => .fail
  | _ => .ok (.num 7)

/-- C5 counterexample: on a stream with exactly one transient failure
    among the consumed attempts (the rest being 429s, with a success
    immediately after), the call abandons with the empty dict: the three
    prior 429s counted toward the 3-failure abandonment threshold. -/
theorem claim_C5_counterexample :
    (List.range 4).countP (fun i => isFailResp (respC5 i)) = 1
    ∧ isOkResp (respC5 4) = true
    ∧ get_json_aux respC5 10 0 0 = some (JVal.obj [])
    ∧ get_json_aux respC5 10 0 0 ≠ some (JVal.num 7) := by
  refine ⟨by decide, by decide, by rfl, ?_⟩
  intro h
  rw [show get_json_aux respC5 10 0 0 = some (JVal.obj []) from rfl] at h
  injection h with h2
  exact JVal.noConfusion h2

/-- One-step unfolding of get_json_aux on a success. -/
theorem get_json_aux_ok (resp : ℕ → HResp) (i t fuel : ℕ) (v : JVal)
    (h : resp i = .ok v) : get_json_aux resp (fuel + 1) i t = some v := by
  unfold get_json_aux; rw [h]


/-- One-step unfolding of get_json_aux on a 429. -/
theorem get_json_aux_rate (resp : ℕ → HResp) (i t fuel : ℕ)
    (h : resp i = .rate) :
    get_json_aux resp (fuel + 1) i t = get_json_aux resp fuel (i + 1) (t + 1) := by
  conv_lhs => unfold get_json_aux
  rw [h]

/-- One-step unfolding of get_json_aux on a transient failure. -/
theorem get_json_aux_fail (resp : ℕ → HResp) (i t fuel : ℕ)
    (h : resp i = .fail) :
    get_json_aux resp (fuel + 1) i t =
      if t + 1 > 3 then some (JVal.obj []) else get_json_aux resp fuel (i + 1) (t + 1) := by
  conv_lhs => unfold get_json_aux
  rw [h]

/-- Running get_json over `n` retried attempts (non-successes that do not
    trip the threshold) advances the attempt index and the shared counter
    together. -/
theorem get_json_skip_run (resp : ℕ → HResp) :
    ∀ n i t fuel,
      (∀ j, j < n → isOkResp (resp (i + j)) = false
        ∧ (isFailResp (resp (i + j)) = true → t + j + 1 ≤ 3)) →
      get_json_aux resp (fuel + n) i t = get_json_aux resp fuel (i + n) (t + n) := by
  intro n
  induction n with
  | zero => intro i t fuel _; rfl
  | succ m ih =>
    intro i t fuel h
    have h0 := h 0 (Nat.succ_pos m)
    simp only [Nat.add_zero] at h0
    have hrest : ∀ j, j < m → isOkResp (resp (i + 1 + j)) = false
        ∧ (isFailResp (resp (i + 1 + j)) = true → t + 1 + j + 1 ≤ 3) := by
      intro j hj
      have hj1 := h (j + 1) (Nat.succ_lt_succ hj)
      rw [show i + (j + 1) = i + 1 + j from by omega] at hj1
      exact ⟨hj1.1, fun hf => by have := hj1.2 hf; omega⟩
    have e1 : i + 1 + m = i + (m + 1) := by omega
    have e2 : t + 1 + m = t + (m + 1) := by omega
    have step := ih (i + 1) (t + 1) fuel hrest
    rw [e1, e2] at step
    show get_json_aux resp (fuel + m + 1) i t = _
    cases hr : resp i with
    | ok v =>
      rw [hr] at h0
      simp [isOkResp] at h0
    | rate => rw [get_json_aux_rate resp i t (fuel + m) hr]; exact step
    | fail =>
      rw [get_json_aux_fail resp i t (fuel + m) hr,
        if_neg (by have := h0.2 (by rw [hr]; rfl); omega)]
      exact step

/-- C5 amended: get_json keeps one counter shared between 429s and other
    failures.  A stream of pure 429s never abandons (the call just keeps
    retrying); otherwise the first decisive attempt wins: a success at
    index `i` returns its payload, and a transient failure at index
    `i ≥ 3` — counting every earlier 429 and transient failure alike —
    abandons and returns the empty dict. -/
theorem claim_C5_shared_counter (resp : ℕ → HResp) (i : ℕ)
    (hpre : ∀ j, j < i → isOkResp (resp j) = false
      ∧ (isFailResp (resp j) = true → j + 1 ≤ 3)) :
    ((∀ j, resp j = .rate) → ∀ fuel i0 t0, get_json_aux resp fuel i0 t0 = none)
    ∧ (∀ v, resp i = .ok v → ∀ fuel, i < fuel → get_json_aux resp fuel 0 0 = some v)
    ∧ (resp i = .fail → 3 ≤ i → ∀ fuel, i < fuel →
        get_json_aux resp fuel 0 0 = some (JVal.obj [])) := by
  have run : ∀ fuel, i < fuel →
      get_json_aux resp fuel 0 0 = get_json_aux resp (fuel - i) i i := by
    intro fuel hi
    have hf : fuel - i + i = fuel := Nat.sub_add_cancel (le_of_lt hi)
    have hrun := get_json_skip_run resp i 0 0 (fuel - i) (by
      intro j hj
      have h1 := hpre j hj
      constructor
      · simpa using h1.1
      · intro hf2
        have h2 : isFailResp (resp j) = true := by simpa using hf2
        have := h1.2 h2
        omega)
    simp only [Nat.zero_add] at hrun
    rw [hf] at hrun
    exact hrun
  refine ⟨?_, ?_, ?_⟩
  · intro hall fuel
    induction fuel with
    | zero => intro i0 t0; rfl
    | succ m ihm =>
      intro i0 t0
      rw [get_json_aux_rate resp i0 t0 m (hall i0)]
      exact ihm (i0 + 1) (t0 + 1)
  · intro v hok fuel hi
    rw [run fuel hi]
    obtain ⟨k, hk⟩ : ∃ k, fuel - i = k + 1 := ⟨fuel - i - 1, by omega⟩
    rw [hk]
    exact get_json_aux_ok resp i i k v hok
  · intro hfail h3 fuel hi
    rw [run fuel hi]
    obtain ⟨k, hk⟩ : ∃ k, fuel - i = k + 1 := ⟨fuel - i - 1, by omega⟩
    rw [hk, get_json_aux_fail resp i i k hfail]
    exact if_pos (by omega)

/-- The outcome stream for the C5 witness: one 429, one transient failure,
    then successes. -/
def respC5w : ℕ → HResp
  | 0 => .rate
  | 1 => .fail
  | _ => .ok (.num 5)

/-- C5 witness: the amended theorem applied to a concrete stream where a
    429 and an early transient failure are retried and the success at
    index 2 is returned. -/
theorem claim_C5_witness : get_json_aux respC5w 10 0 0 = some (JVal.num 5) :=
  (claim_C5_shared_counter respC5w 2 (by
    intro j hj
    match j, hj with
    | 0, _ => exact ⟨by decide, by decide⟩
    | 1, _ => exact ⟨by decide, by decide⟩)).2.1 (JVal.num 5) rfl 10 (by decide)

/-- One listing child's `ch.get("data", {})`. -/
def childData (ch : JVal) : Except String JVal := jGetD ch "data" (.obj [])

/-- The walker's `float(p.get("created_utc", 0) or 0)`. -/
def createdVal (p : JVal) : Except String ℚ :=
  match jGetD p "created_utc" (.num 0) with
  | .ok v => pyFloat (pyOr v (.num 0))
  | .error e => .error e

/-- Extract every child's item dict in order, stopping at the first
    extraction error (a sequencing helper for stating walker results). -/
def mapChildData : List JVal → Except String (List JVal)
  | [] => .ok []
  | ch :: rest =>
    match childData ch with
    | .error e => .error e
    | .ok p =>
      match mapChildData rest with
      | .error e => .error e
      | .ok ps => .ok (p :: ps)

/-- The inner for-loop of list_new_posts over one page of children.
    Mirrors the source: extract the item dict, read its creation time, stop
    the whole walk if it is older than the cutoff, otherwise append and
    stop if the cap is reached.  The Bool is true when the loop returned
    early, which ends pagination. -/
def pageScanE (cutoff : ℚ) (cap : ℕ) :
    List JVal → List JVal → Except String (List JVal × Bool)
  | out, [] => .ok (out, false)
  | out, ch :: rest =>
    match childData ch with
    | .error e => .error e
    | .ok p =>
      match createdVal p with
      | .error e => .error e
      | .ok created =>
        if created < cutoff then .ok (out, true)
        else if cap ≤ (out ++ [p]).length then .ok (out ++ [p], true)
        else pageScanE cutoff cap (out ++ [p]) rest

/-- The outer while-loop of list_new_posts.  `env` is the stream of
    payloads the fetch layer returns, consumed one per page request (the
    counter `k` is the index of the next fetch); `fuel` bounds the page
    count.  A falsy `children` breaks, a truthy non-list `children` is an
    iteration type error (as in Python, where the first element of a dict
    or string iteration immediately fails `.get`), a missing or falsy
    `after` breaks. -/
def walkAuxE (env : ℕ → JVal) (cutoff : ℚ) (cap : ℕ) :
    ℕ → ℕ → List JVal → Except String (List JVal × ℕ)
  | 0, k, out => .ok (out, k)
  | fuel + 1, k, out =>
    if out.length < cap then
      match jGetD (env k) "data" (.obj []) with
      | .error e => .error e
      | .ok d =>
        match jGetD d "children" (.arr []) with
        | .error e => .error e
        | .ok children =>
          if truthy children = false then .ok (out, k + 1)
          else
            match children with
            | .arr cs =>
              match pageScanE cutoff cap out cs with
              | .error e => .error e
              | .ok (out2, stop) =>
                if stop then .ok (out2, k + 1)
                else
                  match jGetD d "after" .null with
                  | .error e => .error e
                  | .ok aft =>
                    if truthy aft then walkAuxE env cutoff cap fuel (k + 1) out2
                    else .ok (out2, k + 1)
            | _ => .error "TypeError: children not iterable"
    else .ok (out, k)

/-- list_new_posts(sub, since_utc, max_items, ...) over the payload stream,
    returning the collected item dicts and the next fetch index.  Fuel
    `cap + 1` never runs out: every iteration that recurses has appended at
    least one item while the loop guard requires fewer than `cap` items. -/
def list_new_posts_E (env : ℕ → JVal) (cutoff : ℚ) (cap : ℕ) (k : ℕ) :
    Except String (List JVal × ℕ) :=
  walkAuxE env cutoff cap (cap + 1) k []

/-- A listing payload with the given children and pagination cursor. -/
def mkListing (children : List JVal) (aft : JVal) : JVal :=
  .obj [("data", .obj [("children", .arr children), ("after", aft)])]

/-- A listing child wrapping the given item fields. -/
def mkItem (fields : List (String × JVal)) : JVal :=
  .obj [("data", .obj fields)]

/-- The page scan never exceeds the cap when entered below it. -/
theorem pageScanE_length (cutoff : ℚ) (cap : ℕ) :
    ∀ cs out out2 stop, out.length < cap →
      pageScanE cutoff cap out cs = .ok (out2, stop) → out2.length ≤ cap := by
  intro cs
  induction cs with
  | nil =>
    intro out out2 stop hlt h
    cases h
    exact le_of_lt hlt
  | cons ch rest ih =>
    intro out out2 stop hlt h
    unfold pageScanE at h
    split at h
    next => exact Except.noConfusion h
    next p heq =>
      split at h
      next => exact Except.noConfusion h
      next created heq2 =>
        split at h
        next =>
          cases h
          exact le_of_lt hlt
        next =>
          split at h
          next hcap =>
            cases h
            simp only [List.length_append, List.length_singleton]
            omega
          next hcap =>
            have hlt2 : (out ++ [p]).length < cap := by
              simp only [List.length_append, List.length_singleton] at hcap ⊢
              omega
            exact ih (out ++ [p]) out2 stop hlt2 h

/-- The walker keeps its accumulator at or below the cap. -/
theorem walkAuxE_length (env : ℕ → JVal) (cutoff : ℚ) (cap : ℕ) :
    ∀ fuel k out posts k2, out.length ≤ cap →
      walkAuxE env cutoff cap fuel k out = .ok (posts, k2) → posts.length ≤ cap := by
  intro fuel
  induction fuel with
  | zero =>
    intro k out posts k2 hle h
    cases h
    exact hle
  | succ m ih =>
    intro k out posts k2 hle h
    unfold walkAuxE at h
    split at h
    case isTrue hguard =>
      split at h
      · exact Except.noConfusion h
      · rename_i d heqd
        split at h
        · exact Except.noConfusion h
        · rename_i children heqc
          split at h
          · cases h
            exact hle
          · rename_i hne
            split at h
            · rename_i cs
              split at h
              · exact Except.noConfusion h
              · rename_i out2 stop heqp
                have hlen2 := pageScanE_length cutoff cap cs out out2 stop hguard heqp
                split at h
                · cases h
                  exact hlen2
                · split at h
                  · exact Except.noConfusion h
                  · rename_i aft heqa
                    split at h
                    · exact ih (k + 1) out2 posts k2 hlen2 h
                    · cases h
                      exact hlen2
            · exact Except.noConfusion h
    case isFalse hguard =>
      cases h
      exact hle

/-- C8: for every payload stream, cutoff, cap and starting fetch index, the
    walker returns at most `cap` items for one source. -/
theorem claim_C8_cap (env : ℕ → JVal) (cutoff : ℚ) (cap k : ℕ)
    (posts : List JVal) (k2 : ℕ)
    (h : list_new_posts_E env cutoff cap k = .ok (posts, k2)) :
    posts.length ≤ cap :=
  walkAuxE_length env cutoff cap (cap + 1) k [] posts k2 (by simp) h

/-- The payload stream for the C8 witness: one page of two fresh items and
    no further cursor. -/
def envC8 : ℕ → JVal
  | 0 => mkListing [mkItem [("created_utc", .num 50)], mkItem [("created_utc", .num 40)]] .null
  | _ => .obj []

/-- C8 witness: the cap bound applied to a concrete stream (cap 1, so the
    page is cut short at one item). -/
theorem claim_C8_witness :
    ∃ posts k2, list_new_posts_E envC8 10 1 0 = .ok (posts, k2) ∧ posts.length ≤ 1 :=
  ⟨[.obj [("created_utc", .num 50)]], 1, rfl,
    claim_C8_cap envC8 10 1 0 [.obj [("created_utc", .num 50)]] 1 rfl⟩

/-- Scanning a page whose prefix is within the window and whose next item
    is older than the cutoff appends exactly the prefix and stops, no
    matter what follows on the page. -/
theorem pageScanE_stops (cutoff : ℚ) (cap : ℕ) :
    ∀ good out ps (bad : JVal) (rest : List JVal),
      (∀ ch ∈ good, ∃ p q, childData ch = .ok p ∧ createdVal p = .ok q ∧ cutoff ≤ q) →
      (∃ pb qb, childData bad = .ok pb ∧ createdVal pb = .ok qb ∧ qb < cutoff) →
      out.length + good.length < cap →
      mapChildData good = .ok ps →
      pageScanE cutoff cap out (good ++ bad :: rest) = .ok (out ++ ps, true) := by
  intro good
  induction good with
  | nil =>
    intro out ps bad rest _ hbad hlen hmap
    cases hmap
    obtain ⟨pb, qb, hpb, hqb, hlt⟩ := hbad
    show pageScanE cutoff cap out (bad :: rest) = .ok (out ++ [], true)
    unfold pageScanE
    simp only [hpb, hqb]
    rw [if_pos hlt, List.append_nil]
  | cons ch gs ih =>
    intro out ps bad rest hgood hbad hlen hmap
    obtain ⟨p, q, hp, hq, hge⟩ := hgood ch (List.mem_cons_self ch gs)
    unfold mapChildData at hmap
    simp only [hp] at hmap
    cases hrest : mapChildData gs with
    | error e => rw [hrest] at hmap; exact Except.noConfusion hmap
    | ok ps2 =>
      rw [hrest] at hmap
      cases hmap
      rw [List.cons_append]
      unfold pageScanE
      simp only [hp, hq]
      rw [if_neg (not_lt.mpr hge)]
      have hcapne : ¬ (cap ≤ (out ++ [p]).length) := by
        simp only [List.length_append, List.length_singleton]
        simp only [List.length_cons] at hlen
        omega
      rw [if_neg hcapne]
      have hrec := ih (out ++ [p]) ps2 bad rest
        (fun c hc => hgood c (List.mem_cons_of_mem ch hc)) hbad
        (by simp only [List.length_append, List.length_singleton] at hlen ⊢
            simp only [List.length_cons] at hlen
            omega)
        hrest
      rw [List.append_assoc, List.singleton_append] at hrec
      exact hrec

/-- When the page at fetch index `k` consists of in-window items, then an
    item older than the cutoff, then anything, the walker returns exactly
    the in-window item dicts after a single fetch, regardless of the rest
    of the payload stream and of the pagination cursor. -/
theorem walk_first_page_stops (env : ℕ → JVal) (cutoff : ℚ) (cap k : ℕ)
    (good : List JVal) (bad : JVal) (rest : List JVal) (aft : JVal) (ps : List JVal)
    (henv : env k = mkListing (good ++ bad :: rest) aft)
    (hgood : ∀ ch ∈ good, ∃ p q, childData ch = .ok p ∧ createdVal p = .ok q ∧ cutoff ≤ q)
    (hbad : ∃ pb qb, childData bad = .ok pb ∧ createdVal pb = .ok qb ∧ qb < cutoff)
    (hlen : good.length < cap)
    (hmap : mapChildData good = .ok ps) :
    list_new_posts_E env cutoff cap k = .ok (ps, k + 1) := by
  unfold list_new_posts_E
  obtain ⟨m, rfl⟩ : ∃ m, cap = m + 1 := ⟨cap - 1, by omega⟩
  show walkAuxE env cutoff (m + 1) (m + 1 + 1) k [] = _
  unfold walkAuxE
  rw [if_pos (by simp)]
  rw [henv]
  have h1 : jGetD (mkListing (good ++ bad :: rest) aft) "data" (.obj [])
      = .ok (.obj [("children", .arr (good ++ bad :: rest)), ("after", aft)]) := rfl
  have h2 : jGetD (.obj [("children", .arr (good ++ bad :: rest)), ("after", aft)])
      "children" (.arr []) = .ok (.arr (good ++ bad :: rest)) := rfl
  simp only [h1, h2]
  have ht : truthy (.arr (good ++ bad :: rest)) = true := by
    simp [truthy]
  rw [if_neg (by rw [ht]; simp)]
  have hscan := pageScanE_stops cutoff (m + 1) good [] ps bad rest hgood hbad
    (by simpa using hlen) hmap
  simp only [hscan, List.nil_append, if_pos]

/-- C3: when the page walker meets an item older than the cutoff it stops
    at once and returns exactly the items accumulated so far — the rest of
    that page, the pagination cursor and all further payloads are never
    consulted. -/
theorem claim_C3_stop_at_cutoff (env : ℕ → JVal) (cutoff : ℚ) (cap : ℕ)
    (good : List JVal) (bad : JVal) (rest : List JVal) (aft : JVal) (ps : List JVal)
    (henv : env 0 = mkListing (good ++ bad :: rest) aft)
    (hgood : ∀ ch ∈ good, ∃ p q, childData ch = .ok p ∧ createdVal p = .ok q ∧ cutoff ≤ q)
    (hbad : ∃ pb qb, childData bad = .ok pb ∧ createdVal pb = .ok qb ∧ qb < cutoff)
    (hlen : good.length < cap)
    (hmap : mapChildData good = .ok ps) :
    list_new_posts_E env cutoff cap 0 = .ok (ps, 1) :=
  walk_first_page_stops env cutoff cap 0 good bad rest aft ps henv hgood hbad hlen hmap

/-- The payload stream for the C3 witness: the spec scenario of items at
    cutoff+5h, cutoff+3h and cutoff−1h on one page (times in seconds, with
    a live cursor that is never followed). -/
def envC3 : ℕ → JVal
  | 0 => mkListing
      [mkItem [("created_utc", .num 1018000)],
       mkItem [("created_utc", .num 1010800)],
       mkItem [("created_utc", .num 996400)]] (.str "t3_cursor")
  | _ => .obj []

/-- C3 witness: with cutoff 1000000 the walker returns exactly the first
    two items of the page. -/
theorem claim_C3_witness :
    list_new_posts_E envC3 1000000 300 0
      = .ok ([.obj [("created_utc", .num 1018000)],
              .obj [("created_utc", .num 1010800)]], 1) :=
  claim_C3_stop_at_cutoff envC3 1000000 300
    [mkItem [("created_utc", .num 1018000)], mkItem [("created_utc", .num 1010800)]]
    (mkItem [("created_utc", .num 996400)]) [] (.str "t3_cursor")
    [.obj [("created_utc", .num 1018000)], .obj [("created_utc", .num 1010800)]]
    rfl
    (by
      intro ch hch
      fin_cases hch
      · exact ⟨.obj [("created_utc", .num 1018000)], 1018000, rfl, rfl, by decide⟩
      · exact ⟨.obj [("created_utc", .num 1010800)], 1010800, rfl, rfl, by decide⟩)
    ⟨.obj [("created_utc", .num 996400)], 996400, rfl, rfl, by decide⟩
    (by decide)
    rfl

/-- C10: an item whose created_utc field is zero or null (or absent, in
    which case the lookup default makes it the same as zero) is treated as
    timestamp 0, and for any strictly positive cutoff its appearance ends
    pagination for the source at once: that item and everything after it
    is excluded. -/
theorem claim_C10_falsy_timestamp :
    (∀ pl, (lookField pl "created_utc" (.num 0) = .num 0
        ∨ lookField pl "created_utc" (.num 0) = .null) →
      createdVal (.obj pl) = .ok 0)
    ∧ (∀ (env : ℕ → JVal) (cutoff : ℚ) (cap : ℕ) good (bad : JVal) rest aft ps,
        0 < cutoff →
        env 0 = mkListing (good ++ bad :: rest) aft →
        (∃ plb, childData bad = .ok (.obj plb)
          ∧ (lookField plb "created_utc" (.num 0) = .num 0
            ∨ lookField plb "created_utc" (.num 0) = .null)) →
        (∀ ch ∈ good, ∃ p q, childData ch = .ok p ∧ createdVal p = .ok q ∧ cutoff ≤ q) →
        good.length < cap →
        mapChildData good = .ok ps →
        list_new_posts_E env cutoff cap 0 = .ok (ps, 1)) := by
  have hzero : ∀ pl, (lookField pl "created_utc" (.num 0) = .num 0
      ∨ lookField pl "created_utc" (.num 0) = .null) →
      createdVal (.obj pl) = .ok 0 := by
    intro pl h
    rw [show createdVal (.obj pl)
        = pyFloat (pyOr (lookField pl "created_utc" (.num 0)) (.num 0)) from rfl]
    rcases h with h | h <;> rw [h] <;> rfl
  refine ⟨hzero, ?_⟩
  intro env cutoff cap good bad rest aft ps hpos henv hbad hgood hlen hmap
  obtain ⟨plb, hpb, hfield⟩ := hbad
  exact walk_first_page_stops env cutoff cap 0 good bad rest aft ps henv hgood
    ⟨.obj plb, 0, hpb, hzero plb hfield, hpos⟩ hlen hmap

/-- The payload stream for the C10 witness: a fresh item, then an item with
    no created_utc field, then another fresh item that must be excluded. -/
def envC10 : ℕ → JVal
  | 0 => mkListing
      [mkItem [("created_utc", .num 100)],
       mkItem [("title", .str "no timestamp")],
       mkItem [("created_utc", .num 90)]] .null
  | _ => .obj []

/-- C10 witness: with cutoff 1 the walker stops at the timestampless item,
    excluding it and the fresh item after it. -/
theorem claim_C10_witness :
    list_new_posts_E envC10 1 5 0 = .ok ([.obj [("created_utc", .num 100)]], 1) :=
  claim_C10_falsy_timestamp.2 envC10 1 5
    [mkItem [("created_utc", .num 100)]]
    (mkItem [("title", .str "no timestamp")])
    [mkItem [("created_utc", .num 90)]] .null
    [.obj [("created_utc", .num 100)]]
    (by decide)
    rfl
    ⟨[("title", .str "no timestamp")], rfl, Or.inl rfl⟩
    (by
      intro ch hch
      fin_cases hch
      exact ⟨.obj [("created_utc", .num 100)], 100, rfl, rfl, by decide⟩)
    (by decide)
    rfl

/-- Python `str.strip()` on the ASCII whitespace range. -/
def pyStrip (s : String) : String :=
  String.mk (((s.data.dropWhile isSpaceChar).reverse.dropWhile isSpaceChar).reverse)

/-- The idiom `p.get(key, "") or ""` followed by use as a string.  A falsy
    value gives the empty string; a truthy string gives itself; a truthy
    non-string (which Python would stringify inside the f-string) is
    modelled as unsupported. -/
def pyStrOrEmpty (v : JVal) : Except String String :=
  match pyOr v (.str "") with
  | .str s => .ok s
  | _ => .error "TypeError: non-string text field"

/-- The `to_iso` rendering of a timestamp, modelled as an abstract total
    rendering (no claim inspects its content). -/
def toIso (q : ℚ) : String := toString q

/-- Python `it.get("kind") == "t1"`: equality of a JSON value with a
    string literal is true only for that string. -/
def isT1 : JVal → Bool
  | .str s => s == "t1"
  | _ => false

/-- The comment for-loop of list_comments, within the blanket try/except:
    any raising step returns the bodies accumulated so far.  A body is
    appended when truthy; the loop breaks once the accumulated count
    reaches the limit (checked after each non-continue iteration). -/
def commentLoop (limit : ℕ) : List JVal → List JVal → List JVal
  | out, [] => out
  | out, it :: rest =>
    match it with
    | .obj l =>
      if isT1 (lookField l "kind" .null) = false then commentLoop limit out rest
      else
        match lookField l "data" (.obj []) with
        | .obj dl =>
          let body := pyOr (lookField dl "body" (.str "")) (.str "")
          let out2 := if truthy body then out ++ [body] else out
          if limit ≤ out2.length then out2 else commentLoop limit out2 rest
        | _ => out
    | _ => out

/-- list_comments over one comments payload: a payload that is not a list
    of length at least 2 gives no comments; so does any malformed nesting
    (the try/except).  Returns the raw body values appended. -/
def list_comments_model (payload : JVal) (limit : ℕ) : List JVal :=
  match payload with
  | .arr (_ :: second :: _) =>
    match jGetD second "data" (.obj []) with
    | .error _ => []
    | .ok d =>
      match jGetD d "children" (.arr []) with
      | .error _ => []
      | .ok (.arr its) => commentLoop limit [] its
      | .ok _ => []
  | _ => []

/-- Python `"\n".join(parts)`: every part must be a string. -/
def asStrings : List JVal → Except String (List String)
  | [] => .ok []
  | .str s :: rest =>
    match asStrings rest with
    | .ok l => .ok (s :: l)
    | .error e => .error e
  | _ :: _ => .error "TypeError: join over a non-string"

/-- One emitted CSV row, with the fields the source dict carries.  The
    engagement fields hold the numeric value of `p.get(...) or 0` (bools
    count as 0/1, as in Python arithmetic). -/
structure Row where
  id : JVal
  created_utc : JVal
  created_iso : String
  subreddit : JVal
  author : JVal
  title : String
  selftext : String
  url : JVal
  permalink : String
  score : ℚ
  num_comments : ℚ
  comments_scanned : ℕ
  matched_keywords : String
  high_priority : Bool
  eas_score : ℚ

/-- Build the row dict of harvest for a matched item: every field is read
    back from the item `p` except `title` and the score inputs, which use
    the already-extracted `title` and the (possibly comment-augmented)
    `body`; `selftext` is re-read from `p` and so never contains comment
    text. -/
def createdIsoE (craw : JVal) : Except String String :=
  if truthy craw then
    match pyFloat craw with
    | .ok q => .ok (toIso q)
    | .error e => .error e
  else .ok ""

def mkRowE (p : JVal) (title body : String) : Except String Row :=
  match p with
  | .obj l =>
    let craw := lookField l "created_utc" .null
    match createdIsoE craw with
    | .error e => .error e
    | .ok iso =>
      match pyStrOrEmpty (lookField l "selftext" (.str "")) with
      | .error e => .error e
      | .ok self =>
        match lookField l "permalink" (.str "") with
        | .str plink =>
          match pyFloat (pyOr (lookField l "score" .null) (.num 0)) with
          | .error e => .error e
          | .ok scoreQ =>
            match pyFloat (pyOr (lookField l "num_comments" .null) (.num 0)) with
            | .error e => .error e
            | .ok ncQ =>
              .ok { id := lookField l "id" .null
                    created_utc := craw
                    created_iso := iso
                    subreddit := lookField l "subreddit" .null
                    author := lookField l "author" .null
                    title := title
                    selftext := self
                    url := lookField l "url" .null
                    permalink := "https://reddit.com" ++ plink
                    score := scoreQ
                    num_comments := ncQ
                    comments_scanned := 0
                    matched_keywords :=
                      joinSep ";" (contains_keywords (title ++ "\n" ++ body) KEYWORDS)
                    high_priority := high_priority (title ++ "\n" ++ body)
                    eas_score := score_post title body scoreQ ncQ }
        | _ => .error "TypeError: permalink concat"
  | _ => .error "AttributeError: item is not a dict"

/-- The `or ""` guarded title and selftext extraction at the top of the
    per-item loop. -/
def textExtractE (p : JVal) : Except String (String × String) :=
  match jGetD p "title" (.str "") with
  | .error e => .error e
  | .ok traw =>
    match pyStrOrEmpty traw with
    | .error e => .error e
    | .ok title =>
      match jGetD p "selftext" (.str "") with
      | .error e => .error e
      | .ok braw =>
        match pyStrOrEmpty braw with
        | .error e => .error e
        | .ok body0 => .ok (title, body0)

/-- Extract one item's title and body as harvest does: the `or ""` guarded
    fields, then, when comment inclusion is on, one comments fetch
    (consuming the next payload) whose joined bodies are appended to the
    body and the result stripped. -/
def itemTextE (env : ℕ → JVal) (ic : Bool) (climit : ℕ) (p : JVal) (k : ℕ) :
    Except String (String × String × ℕ) :=
  match textExtractE p with
  | .error e => .error e
  | .ok (title, body0) =>
    if ic then
      match asStrings (list_comments_model (env k) climit) with
      | .error e => .error e
      | .ok cs => .ok (title, pyStrip (body0 ++ "\n" ++ joinSep "\n" cs), k + 1)
    else .ok (title, body0, k)

/-- The per-item loop of harvest over one source's posts: extract the
    text, filter on a non-empty matched-keyword list, and append the built
    row. -/
def processPostsE (env : ℕ → JVal) (ic : Bool) (climit : ℕ) :
    List JVal → List Row → ℕ → Except String (List Row × ℕ)
  | [], rows, k => .ok (rows, k)
  | p :: rest, rows, k =>
    match itemTextE env ic climit p k with
    | .error e => .error e
    | .ok (title, body, k2) =>
      if (contains_keywords (title ++ "\n" ++ body) KEYWORDS).isEmpty then
        processPostsE env ic climit rest rows k2
      else
        match mkRowE p title body with
        | .error e => .error e
        | .ok row => processPostsE env ic climit rest (rows ++ [row]) k2

/-- The per-source loop of harvest.  Source names only select the request
    URL, which the payload-stream model keys by fetch index. -/
def harvestSubsE (env : ℕ → JVal) (cutoff : ℚ) (cap : ℕ) (ic : Bool) (climit : ℕ) :
    List String → List Row → ℕ → Except String (List Row × ℕ)
  | [], rows, k => .ok (rows, k)
  | _sub :: rest, rows, k =>
    match list_new_posts_E env cutoff cap k with
    | .error e => .error e
    | .ok (posts, k2) =>
      match processPostsE env ic climit posts rows k2 with
      | .error e => .error e
      | .ok (rows2, k3) => harvestSubsE env cutoff cap ic climit rest rows2 k3

/-- The sort key on the stored created_utc value: `r.get("created_utc")
    or 0` used numerically (values that are neither numeric nor falsy
    cannot reach an emitted row in this model and are mapped to 0). -/
def createdKey (v : JVal) : ℚ :=
  match pyOr v (.num 0) with
  | .num q => q
  | .bool b => if b then 1 else 0
  | _ => 0

/-- Row `a` may precede row `b` in the final ordering: strictly greater
    score, or equal score and a later (or equal) creation key.  This is
    the reverse lexicographic order of `rows.sort(key=(eas_score,
    created_utc or 0), reverse=True)`. -/
def rowGe (a b : Row) : Prop :=
  b.eas_score < a.eas_score
  ∨ (a.eas_score = b.eas_score ∧ createdKey b.created_utc ≤ createdKey a.created_utc)

instance rowGe.decRel : DecidableRel rowGe := fun a b => by
  unfold rowGe
  infer_instance

instance rowGe.isTotal : IsTotal Row rowGe := by
  constructor
  intro a b
  rcases lt_trichotomy a.eas_score b.eas_score with h | h | h
  · exact Or.inr (Or.inl h)
  · rcases le_total (createdKey a.created_utc) (createdKey b.created_utc) with hc | hc
    · exact Or.inr (Or.inr ⟨h.symm, hc⟩)
    · exact Or.inl (Or.inr ⟨h, hc⟩)
  · exact Or.inl (Or.inl h)

instance rowGe.isTrans : IsTrans Row rowGe := by
  constructor
  intro a b c hab hbc
  rcases hab with h1 | ⟨e1, c1⟩ <;> rcases hbc with h2 | ⟨e2, c2⟩
  · exact Or.inl (lt_trans h2 h1)
  · exact Or.inl (e2 ▸ h1)
  · exact Or.inl (e1 ▸ h2)
  · exact Or.inr ⟨e1.trans e2, le_trans c2 c1⟩

/-- The final stable sort of harvest: Python list.sort is stable and
    `reverse=True` keeps the original order of key-equal rows, which is
    exactly insertion sort under the reverse lexicographic preorder. -/
def sortRows (l : List Row) : List Row := List.insertionSort rowGe l

/-- harvest(subs, hours, max_per_sub, include_comments, ...): walk each
    source in order against the cutoff (now − hours, supplied directly as
    a timestamp), filter and score each item, and return the rows sorted
    by (score, created) descending.  `env` is the stream of payloads the
    fetch layer yields, one per request. -/
def harvest (env : ℕ → JVal) (subs : List String) (cutoff : ℚ) (cap : ℕ)
    (ic : Bool) (climit : ℕ) : Except String (List Row) :=
  match harvestSubsE env cutoff cap ic climit subs [] 0 with
  | .error e => .error e
  | .ok (rows, _) => .ok (sortRows rows)

/-- Key-equality test for one (score, created) sort key. -/
def sameKey (q c : ℚ) (r : Row) : Bool :=
  decide (r.eas_score = q) && decide (createdKey r.created_utc = c)

/-- Rows with the same sort key are mutually `rowGe`. -/
theorem rowGe_of_sameKey {q c : ℚ} {x y : Row}
    (hx : sameKey q c x = true) (hy : sameKey q c y = true) : rowGe x y := by
  unfold sameKey at hx hy
  simp only [Bool.and_eq_true, decide_eq_true_eq] at hx hy
  exact Or.inr ⟨hx.1.trans hy.1.symm, le_of_eq (hy.2.trans hx.2.symm)⟩

/-- Ordered insertion keeps the subsequence of rows with any fixed sort
    key, inserting the new row in front exactly when it has that key. -/
theorem filter_orderedInsert_sameKey (q c : ℚ) (x : Row) :
    ∀ l, (List.orderedInsert rowGe x l).filter (sameKey q c)
      = if sameKey q c x then x :: l.filter (sameKey q c)
        else l.filter (sameKey q c) := by
  intro l
  induction l with
  | nil => cases hx : sameKey q c x <;> simp [List.orderedInsert, List.filter, hx]
  | cons y ys ih =>
    rw [List.orderedInsert]
    by_cases hr : rowGe x y
    · rw [if_pos hr]
      simp [List.filter_cons]
    · rw [if_neg hr, List.filter_cons, ih, List.filter_cons]
      by_cases hx : sameKey q c x = true
      · have hy : sameKey q c y = false := by
          rcases hy2 : sameKey q c y with _ | _
          · rfl
          · exact absurd (rowGe_of_sameKey hx hy2) hr
        simp [hx, hy]
      · have hxf : sameKey q c x = false := by
          rcases hx2 : sameKey q c x with _ | _
          · rfl
          · exact absurd hx2 hx
        simp [hxf]

/-- The final sort is stable: for every sort key, the subsequence of rows
    with that key is unchanged. -/
theorem sortRows_stable (q c : ℚ) :
    ∀ l, (sortRows l).filter (sameKey q c) = l.filter (sameKey q c) := by
  intro l
  induction l with
  | nil => rfl
  | cons x xs ih =>
    unfold sortRows at ih
    show (List.orderedInsert rowGe x (List.insertionSort rowGe xs)).filter _ = _
    rw [filter_orderedInsert_sameKey, ih, List.filter_cons]

/-- C2: any row sequence harvest returns is the stable descending sort of
    the collected rows: pairwise `rowGe`; a strictly higher score comes
    strictly earlier; on score ties a strictly later creation key comes
    strictly earlier; and the output is a permutation of the collected
    rows in which rows sharing both keys keep their encounter order. -/
theorem claim_C2_sorted (env : ℕ → JVal) (subs : List String) (cutoff : ℚ)
    (cap : ℕ) (ic : Bool) (climit : ℕ) (res : List Row)
    (h : harvest env subs cutoff cap ic climit = .ok res) :
    List.Pairwise rowGe res
    ∧ (∀ i j : Fin res.length,
        (res.get j).eas_score < (res.get i).eas_score → (i : ℕ) < (j : ℕ))
    ∧ (∀ i j : Fin res.length, (res.get i).eas_score = (res.get j).eas_score →
        createdKey (res.get j).created_utc < createdKey (res.get i).created_utc →
        (i : ℕ) < (j : ℕ))
    ∧ ∃ raw k, harvestSubsE env cutoff cap ic climit subs [] 0 = .ok (raw, k)
        ∧ res = sortRows raw
        ∧ res.Perm raw
        ∧ ∀ q c, res.filter (sameKey q c) = raw.filter (sameKey q c) := by
  unfold harvest at h
  split at h
  · exact Except.noConfusion h
  · rename_i raw k heq
    cases h
    have hsorted : List.Sorted rowGe (sortRows raw) :=
      List.sorted_insertionSort rowGe raw
    have hget := List.pairwise_iff_get.mp hsorted
    refine ⟨hsorted, ?_, ?_, raw, k, heq, rfl, List.perm_insertionSort rowGe raw,
      fun q c => sortRows_stable q c raw⟩
    · intro i j hlt
      rcases Nat.lt_trichotomy (i : ℕ) (j : ℕ) with hij | hij | hij
      · exact hij
      · exact absurd hlt (by rw [Fin.ext hij]; exact lt_irrefl _)
      · rcases hget j i hij with hcase | ⟨hcase, _⟩
        · exact absurd hlt (lt_asymm hcase)
        · exact absurd hlt (hcase ▸ lt_irrefl _)
    · intro i j heqs hlt
      rcases Nat.lt_trichotomy (i : ℕ) (j : ℕ) with hij | hij | hij
      · exact hij
      · exact absurd hlt (by rw [Fin.ext hij]; exact lt_irrefl _)
      · rcases hget j i hij with hcase | ⟨_, hcase⟩
        · exact absurd hcase (heqs ▸ lt_irrefl _)
        · exact absurd hlt (not_lt.mpr hcase)

/-- The payload stream for the C2 witness: one page with two matching
    items of different scores. -/
def envC2 : ℕ → JVal
  | 0 => mkListing
      [mkItem [("created_utc", .num 100), ("title", .str "flood")],
       mkItem [("created_utc", .num 200), ("title", .str "fire on Duke St")]] .null
  | _ => .obj []

/-- The concrete harvest output for the C2 witness. -/
def resC2 : List Row := (harvest envC2 ["s"] 10 5 false 20).toOption.getD []

/-- C2 witness: the ordering theorem applied to a concrete run. -/
theorem claim_C2_witness :
    List.Pairwise rowGe resC2
    ∧ (∀ i j : Fin resC2.length,
        (resC2.get j).eas_score < (resC2.get i).eas_score → (i : ℕ) < (j : ℕ))
    ∧ (∀ i j : Fin resC2.length, (resC2.get i).eas_score = (resC2.get j).eas_score →
        createdKey (resC2.get j).created_utc < createdKey (resC2.get i).created_utc →
        (i : ℕ) < (j : ℕ))
    ∧ ∃ raw k, harvestSubsE envC2 10 5 false 20 ["s"] [] 0 = .ok (raw, k)
        ∧ resC2 = sortRows raw
        ∧ resC2.Perm raw
        ∧ ∀ q c, resC2.filter (sameKey q c) = raw.filter (sameKey q c) :=
  claim_C2_sorted envC2 ["s"] 10 5 false 20 resC2 (by with_unfolding_all rfl)

/-- The all-array payload stream refuting C4 as stated. -/
def envC4bad : ℕ → JVal := fun _ => .arr []

/-- C4 counterexample: a payload shape (a JSON array as the listing
    response) on which harvest does not return normally — `data.get`
    raises AttributeError on a list, and nothing catches it. -/
theorem claim_C4_counterexample :
    harvest envC4bad ["s"] 0 5 false 20
      = .error "AttributeError: get on a non-dict" := rfl

/-- Is the value a number or a bool (the kinds float() accepts here)? -/
def isNumish : JVal → Bool
  | .num _ => true
  | .bool _ => true
  | _ => false

/-- Is the value a string? -/
def isStrJ : JVal → Bool
  | .str _ => true
  | _ => false

/-- A field value that `x or 0` then float() handles: falsy or numeric. -/
def numishOrFalsy (v : JVal) : Bool := !truthy v || isNumish v

/-- A field value that `x or ""` then string use handles: falsy or a
    string. -/
def strOrFalsy (v : JVal) : Bool := !truthy v || isStrJ v

/-- An item dict whose fields have the types harvest consumes without
    raising. -/
def itemSafe : JVal → Bool
  | .obj l =>
    numishOrFalsy (lookField l "created_utc" .null)
    && strOrFalsy (lookField l "title" (.str ""))
    && strOrFalsy (lookField l "selftext" (.str ""))
    && isStrJ (lookField l "permalink" (.str ""))
    && numishOrFalsy (lookField l "score" .null)
    && numishOrFalsy (lookField l "num_comments" .null)
  | _ => false

/-- A listing child that yields a safe item dict. -/
def childSafe : JVal → Bool
  | .obj l => itemSafe (lookField l "data" (.obj []))
  | _ => false

/-- A payload the listing walker consumes without raising: a dict whose
    `data` is a dict and whose `children` is either a list of safe
    children or falsy. -/
def listingSafe : JVal → Bool
  | .obj l =>
    match lookField l "data" (.obj []) with
    | .obj dl =>
      (match lookField dl "children" (.arr []) with
       | .arr cs => cs.all childSafe
       | c => !truthy c)
    | _ => false
  | _ => false

/-- A payload whose extracted comment bodies are all strings, so the
    newline join cannot raise. -/
def commentsSafe (climit : ℕ) (v : JVal) : Bool :=
  (list_comments_model v climit).all isStrJ

/-- A payload that is safe in both of the roles a fetch result can play. -/
def payloadSafe (climit : ℕ) (v : JVal) : Bool :=
  listingSafe v && commentsSafe climit v

/-- Looking a key up under two defaults either agrees (key present) or
    yields the two defaults (key absent). -/
theorem lookField_default (l : List (String × JVal)) (key : String) (d1 d2 : JVal) :
    (lookField l key d1 = lookField l key d2)
    ∨ (lookField l key d1 = d1 ∧ lookField l key d2 = d2) := by
  induction l with
  | nil => exact Or.inr ⟨rfl, rfl⟩
  | cons kv rest ih =>
    obtain ⟨k0, v0⟩ := kv
    by_cases hk : k0 = key
    · left
      simp [lookField, hk]
    · simpa [lookField, hk] using ih

/-- A falsy-or-numeric value survives `float(x or 0)`. -/
theorem pyFloat_or0 (v : JVal) (h : numishOrFalsy v = true) :
    ∃ q, pyFloat (pyOr v (.num 0)) = .ok q := by
  by_cases ht : truthy v = true
  · have hn : isNumish v = true := by simpa [numishOrFalsy, ht] using h
    rw [show pyOr v (.num 0) = v from by simp [pyOr, ht]]
    cases v with
    | num q => exact ⟨q, rfl⟩
    | bool b => exact ⟨if b then 1 else 0, rfl⟩
    | null => simp [isNumish] at hn
    | str s => simp [isNumish] at hn
    | arr a => simp [isNumish] at hn
    | obj o => simp [isNumish] at hn
  · rw [show pyOr v (.num 0) = .num 0 from by simp [pyOr, ht]]
    exact ⟨0, rfl⟩

/-- A falsy-or-string value survives `(x or "")` used as a string. -/
theorem pyStrOrEmpty_ok (v : JVal) (h : strOrFalsy v = true) :
    ∃ s, pyStrOrEmpty v = .ok s := by
  by_cases ht : truthy v = true
  · have hn : isStrJ v = true := by simpa [strOrFalsy, ht] using h
    cases v with
    | str s => exact ⟨s, by simp [pyStrOrEmpty, pyOr, ht]⟩
    | null => simp [isStrJ] at hn
    | bool b => simp [isStrJ] at hn
    | num q => simp [isStrJ] at hn
    | arr a => simp [isStrJ] at hn
    | obj o => simp [isStrJ] at hn
  · exact ⟨"", by simp [pyStrOrEmpty, pyOr, ht]⟩

/-- A safe created_utc field survives the walker's float conversion. -/
theorem createdVal_ok (l : List (String × JVal))
    (h : numishOrFalsy (lookField l "created_utc" .null) = true) :
    ∃ q, createdVal (.obj l) = .ok q := by
  rw [show createdVal (.obj l)
      = pyFloat (pyOr (lookField l "created_utc" (.num 0)) (.num 0)) from rfl]
  rcases lookField_default l "created_utc" (.num 0) .null with he | ⟨h1, _⟩
  · rw [he]
    exact pyFloat_or0 _ h
  · rw [h1]
    exact ⟨0, rfl⟩

/-- A safe created_utc field survives the created_iso rendering. -/
theorem createdIsoE_ok (v : JVal) (h : numishOrFalsy v = true) :
    ∃ s, createdIsoE v = .ok s := by
  unfold createdIsoE
  by_cases ht : truthy v = true
  · have hn : isNumish v = true := by simpa [numishOrFalsy, ht] using h
    rw [if_pos ht]
    cases v with
    | num q => exact ⟨toIso q, rfl⟩
    | bool b => exact ⟨toIso (if b then 1 else 0), rfl⟩
    | null => simp [isNumish] at hn
    | str s => simp [isNumish] at hn
    | arr a => simp [isNumish] at hn
    | obj o => simp [isNumish] at hn
  · rw [if_neg ht]
    exact ⟨"", rfl⟩

/-- A list of string bodies joins without raising. -/
theorem asStrings_ok (bs : List JVal) (h : bs.all isStrJ = true) :
    ∃ ss, asStrings bs = .ok ss := by
  induction bs with
  | nil => exact ⟨[], rfl⟩
  | cons b rest ih =>
    simp only [List.all_cons, Bool.and_eq_true] at h
    obtain ⟨hb, hrest⟩ := h
    obtain ⟨ss, hss⟩ := ih hrest
    cases b with
    | str s => exact ⟨s :: ss, by simp [asStrings, hss]⟩
    | null => simp [isStrJ] at hb
    | bool x => simp [isStrJ] at hb
    | num x => simp [isStrJ] at hb
    | arr x => simp [isStrJ] at hb
    | obj x => simp [isStrJ] at hb

/-- Building the row of a safe item never raises. -/
theorem mkRowE_ok (l : List (String × JVal)) (title body : String)
    (h : itemSafe (.obj l) = true) :
    ∃ r, mkRowE (.obj l) title body = .ok r := by
  unfold itemSafe at h
  simp only [Bool.and_eq_true] at h
  obtain ⟨⟨⟨⟨⟨hcr, hti⟩, hse⟩, hpl⟩, hsc⟩, hnc⟩ := h
  obtain ⟨iso, hiso⟩ := createdIsoE_ok _ hcr
  obtain ⟨self, hself⟩ := pyStrOrEmpty_ok _ hse
  obtain ⟨q1, h1⟩ := pyFloat_or0 _ hsc
  obtain ⟨q2, h2⟩ := pyFloat_or0 _ hnc
  unfold mkRowE
  simp only [hiso, hself, h1, h2]
  cases hv : lookField l "permalink" (.str "") with
  | str s => exact ⟨_, rfl⟩
  | null => rw [hv] at hpl; simp [isStrJ] at hpl
  | bool b => rw [hv] at hpl; simp [isStrJ] at hpl
  | num q => rw [hv] at hpl; simp [isStrJ] at hpl
  | arr a => rw [hv] at hpl; simp [isStrJ] at hpl
  | obj o => rw [hv] at hpl; simp [isStrJ] at hpl

/-- Extracting the (possibly comment-augmented) text of a safe item never
    raises. -/
theorem textExtractE_ok (l : List (String × JVal))
    (hitem : itemSafe (.obj l) = true) :
    ∃ t b, textExtractE (.obj l) = .ok (t, b) := by
  unfold itemSafe at hitem
  simp only [Bool.and_eq_true] at hitem
  obtain ⟨⟨⟨⟨⟨_, hti⟩, hse⟩, _⟩, _⟩, _⟩ := hitem
  obtain ⟨t, hT⟩ := pyStrOrEmpty_ok _ hti
  obtain ⟨b0, hB⟩ := pyStrOrEmpty_ok _ hse
  unfold textExtractE
  simp only [show jGetD (JVal.obj l) "title" (.str "") = .ok (lookField l "title" (.str "")) from rfl,
    show jGetD (JVal.obj l) "selftext" (.str "") = .ok (lookField l "selftext" (.str "")) from rfl,
    hT, hB]
  exact ⟨t, b0, rfl⟩

theorem itemTextE_ok (env : ℕ → JVal) (ic : Bool) (climit : ℕ)
    (l : List (String × JVal)) (k : ℕ)
    (hitem : itemSafe (.obj l) = true)
    (hcs : commentsSafe climit (env k) = true) :
    ∃ t b k2, itemTextE env ic climit (.obj l) k = .ok (t, b, k2) := by
  obtain ⟨t, b0, hX⟩ := textExtractE_ok l hitem
  unfold itemTextE
  simp only [hX]
  cases ic with
  | false => exact ⟨t, b0, k, rfl⟩
  | true =>
    obtain ⟨ss, hss⟩ := asStrings_ok _ hcs
    rw [if_pos rfl]
    simp only [hss]
    exact ⟨t, pyStrip (b0 ++ "\n" ++ joinSep "\n" ss), k + 1, rfl⟩

/-- Processing a list of safe posts never raises. -/
theorem processPostsE_ok (env : ℕ → JVal) (ic : Bool) (climit : ℕ)
    (hcsafe : ∀ k, commentsSafe climit (env k) = true) :
    ∀ posts rows k, (∀ p ∈ posts, itemSafe p = true) →
      ∃ rows2 k2, processPostsE env ic climit posts rows k = .ok (rows2, k2) := by
  intro posts
  induction posts with
  | nil => exact fun rows k _ => ⟨rows, k, rfl⟩
  | cons p rest ih =>
    intro rows k hsafe
    have hp := hsafe p (List.mem_cons_self p rest)
    have hl : ∃ l, p = JVal.obj l := by
      cases p with
      | obj l => exact ⟨l, rfl⟩
      | null => simp [itemSafe] at hp
      | bool b => simp [itemSafe] at hp
      | num q => simp [itemSafe] at hp
      | str s => simp [itemSafe] at hp
      | arr a => simp [itemSafe] at hp
    obtain ⟨l, rfl⟩ := hl
    obtain ⟨t, b, k2, hT⟩ := itemTextE_ok env ic climit l k hp (hcsafe k)
    unfold processPostsE
    simp only [hT]
    by_cases hm : (contains_keywords (t ++ "\n" ++ b) KEYWORDS).isEmpty = true
    · rw [if_pos hm]
      exact ih rows k2 (fun q hq => hsafe q (List.mem_cons_of_mem _ hq))
    · rw [if_neg hm]
      obtain ⟨r, hR⟩ := mkRowE_ok l t b hp
      simp only [hR]
      exact ih (rows ++ [r]) k2 (fun q hq => hsafe q (List.mem_cons_of_mem _ hq))

/-- Scanning a page of safe children never raises, and every accumulated
    item stays safe. -/
theorem pageScanE_ok (cutoff : ℚ) (cap : ℕ) :
    ∀ cs out, (∀ ch ∈ cs, childSafe ch = true) → (∀ p ∈ out, itemSafe p = true) →
      ∃ out2 stop, pageScanE cutoff cap out cs = .ok (out2, stop)
        ∧ ∀ p ∈ out2, itemSafe p = true := by
  intro cs
  induction cs with
  | nil => exact fun out _ hout => ⟨out, false, rfl, hout⟩
  | cons ch rest ih =>
    intro out hch hout
    have hc := hch ch (List.mem_cons_self ch rest)
    have hl : ∃ cl, ch = JVal.obj cl := by
      cases ch with
      | obj cl => exact ⟨cl, rfl⟩
      | null => simp [childSafe] at hc
      | bool b => simp [childSafe] at hc
      | num q => simp [childSafe] at hc
      | str s => simp [childSafe] at hc
      | arr a => simp [childSafe] at hc
    obtain ⟨cl, rfl⟩ := hl
    have hpi : itemSafe (lookField cl "data" (.obj [])) = true := by
      simpa [childSafe] using hc
    have hpobj : ∃ pl, lookField cl "data" (.obj []) = JVal.obj pl := by
      cases hv : lookField cl "data" (.obj []) with
      | obj pl => exact ⟨pl, rfl⟩
      | null => rw [hv] at hpi; simp [itemSafe] at hpi
      | bool b => rw [hv] at hpi; simp [itemSafe] at hpi
      | num q => rw [hv] at hpi; simp [itemSafe] at hpi
      | str s => rw [hv] at hpi; simp [itemSafe] at hpi
      | arr a => rw [hv] at hpi; simp [itemSafe] at hpi
    obtain ⟨pl, hpl⟩ := hpobj
    have hcv : ∃ q, createdVal (JVal.obj pl) = .ok q := by
      apply createdVal_ok
      rw [hpl] at hpi
      unfold itemSafe at hpi
      simp only [Bool.and_eq_true] at hpi
      exact hpi.1.1.1.1.1
    obtain ⟨q, hq⟩ := hcv
    unfold pageScanE
    rw [show childData (JVal.obj cl) = .ok (lookField cl "data" (.obj [])) from rfl, hpl]
    simp only [hq]
    have hpi2 : itemSafe (JVal.obj pl) = true := by rw [← hpl]; exact hpi
    by_cases hold : q < cutoff
    · rw [if_pos hold]
      exact ⟨out, true, rfl, hout⟩
    · rw [if_neg hold]
      have hout2 : ∀ p ∈ out ++ [JVal.obj pl], itemSafe p = true := by
        intro p hpmem
        rcases List.mem_append.mp hpmem with hpm | hpm
        · exact hout p hpm
        · rw [List.mem_singleton.mp hpm]
          exact hpi2
      by_cases hcap : cap ≤ (out ++ [JVal.obj pl]).length
      · rw [if_pos hcap]
        exact ⟨out ++ [JVal.obj pl], true, rfl, hout2⟩
      · rw [if_neg hcap]
        exact ih (out ++ [JVal.obj pl])
          (fun c hcm => hch c (List.mem_cons_of_mem _ hcm)) hout2

/-- Walking a source over safe listing payloads never raises, and every
    collected item is safe. -/
theorem walkAuxE_ok (env : ℕ → JVal) (cutoff : ℚ) (cap : ℕ)
    (hsafe : ∀ k, listingSafe (env k) = true) :
    ∀ fuel k out, (∀ p ∈ out, itemSafe p = true) →
      ∃ posts k2, walkAuxE env cutoff cap fuel k out = .ok (posts, k2)
        ∧ ∀ p ∈ posts, itemSafe p = true := by
  intro fuel
  induction fuel with
  | zero => exact fun k out hout => ⟨out, k, rfl, hout⟩
  | succ m ih =>
    intro k out hout
    have hk := hsafe k
    unfold walkAuxE
    by_cases hguard : out.length < cap
    · rw [if_pos hguard]
      obtain ⟨l, henv⟩ : ∃ l, env k = JVal.obj l := by
        cases hv : env k with
        | obj l => exact ⟨l, rfl⟩
        | null => rw [hv] at hk; simp [listingSafe] at hk
        | bool b => rw [hv] at hk; simp [listingSafe] at hk
        | num q => rw [hv] at hk; simp [listingSafe] at hk
        | str s => rw [hv] at hk; simp [listingSafe] at hk
        | arr a => rw [hv] at hk; simp [listingSafe] at hk
      rw [henv] at hk
      simp only [listingSafe] at hk
      rw [henv]
      simp only [show jGetD (JVal.obj l) "data" (.obj [])
        = .ok (lookField l "data" (.obj [])) from rfl]
      obtain ⟨dl, hdl⟩ : ∃ dl, lookField l "data" (.obj []) = JVal.obj dl := by
        cases hv : lookField l "data" (.obj []) with
        | obj dl => exact ⟨dl, rfl⟩
        | null => simp only [hv] at hk; exact absurd hk (by simp)
        | bool b => simp only [hv] at hk; exact absurd hk (by simp)
        | num q => simp only [hv] at hk; exact absurd hk (by simp)
        | str s => simp only [hv] at hk; exact absurd hk (by simp)
        | arr a => simp only [hv] at hk; exact absurd hk (by simp)
      simp only [hdl] at hk ⊢
      simp only [show jGetD (JVal.obj dl) "children" (.arr [])
        = .ok (lookField dl "children" (.arr [])) from rfl]
      cases hch : lookField dl "children" (.arr []) with
      | arr cs =>
        simp only [hch] at hk ⊢
        by_cases hte : truthy (JVal.arr cs) = false
        · rw [if_pos hte]
          exact ⟨out, k + 1, rfl, hout⟩
        · rw [if_neg hte]
          have hall : ∀ ch ∈ cs, childSafe ch = true :=
            fun ch hcm => List.all_eq_true.mp hk ch hcm
          obtain ⟨out2, stop, hscan, hout2⟩ := pageScanE_ok cutoff cap cs out hall hout
          simp only [hscan]
          cases stop with
          | true =>
            rw [if_pos rfl]
            exact ⟨out2, k + 1, rfl, hout2⟩
          | false =>
            rw [if_neg (by simp)]
            simp only [show jGetD (JVal.obj dl) "after" .null
              = .ok (lookField dl "after" .null) from rfl]
            by_cases hta : truthy (lookField dl "after" .null) = true
            · rw [if_pos hta]
              exact ih (k + 1) out2 hout2
            · rw [if_neg hta]
              exact ⟨out2, k + 1, rfl, hout2⟩
      | null =>
        simp only [hch] at hk ⊢
        rw [if_pos (by decide)]
        exact ⟨out, k + 1, rfl, hout⟩
      | bool b =>
        simp only [hch] at hk ⊢
        rw [if_pos (by simpa using hk)]
        exact ⟨out, k + 1, rfl, hout⟩
      | num q =>
        simp only [hch] at hk ⊢
        rw [if_pos (by simpa using hk)]
        exact ⟨out, k + 1, rfl, hout⟩
      | str s =>
        simp only [hch] at hk ⊢
        rw [if_pos (by simpa using hk)]
        exact ⟨out, k + 1, rfl, hout⟩
      | obj o =>
        simp only [hch] at hk ⊢
        rw [if_pos (by simpa using hk)]
        exact ⟨out, k + 1, rfl, hout⟩
    · rw [if_neg hguard]
      exact ⟨out, k, rfl, hout⟩

/-- The per-source loop never raises over safe payloads. -/
theorem harvestSubsE_ok (env : ℕ → JVal) (cutoff : ℚ) (cap : ℕ) (ic : Bool)
    (climit : ℕ) (hsafe : ∀ k, payloadSafe climit (env k) = true) :
    ∀ subs rows k, ∃ rows2 k2,
      harvestSubsE env cutoff cap ic climit subs rows k = .ok (rows2, k2) := by
  have hlist : ∀ k, listingSafe (env k) = true := by
    intro k
    have h2 := hsafe k
    unfold payloadSafe at h2
    simp only [Bool.and_eq_true] at h2
    exact h2.1
  have hcom : ∀ k, commentsSafe climit (env k) = true := by
    intro k
    have h2 := hsafe k
    unfold payloadSafe at h2
    simp only [Bool.and_eq_true] at h2
    exact h2.2
  intro subs
  induction subs with
  | nil => exact fun rows k => ⟨rows, k, rfl⟩
  | cons sub rest ih =>
    intro rows k
    obtain ⟨posts, k2, hwalk, hpostsafe⟩ :=
      walkAuxE_ok env cutoff cap hlist (cap + 1) k [] (by simp)
    obtain ⟨rows2, k3, hproc⟩ :=
      processPostsE_ok env ic climit hcom posts rows k2 hpostsafe
    obtain ⟨rows3, k4, hrest⟩ := ih rows2 k3
    unfold harvestSubsE
    rw [show list_new_posts_E env cutoff cap k
        = walkAuxE env cutoff cap (cap + 1) k [] from rfl, hwalk]
    simp only [hproc]
    exact ⟨rows3, k4, hrest⟩

/-- C4 amended: over well-shaped fetch payloads — every listing response a
    dict whose children (if truthy) form a list of dicts with well-typed
    item fields, and every extractable comment body a string — harvest
    returns normally for every configuration; ill-shaped payloads can make
    it raise (see the counterexample). -/
theorem claim_C4_graceful (env : ℕ → JVal) (subs : List String) (cutoff : ℚ)
    (cap : ℕ) (ic : Bool) (climit : ℕ)
    (hsafe : ∀ k, payloadSafe climit (env k) = true) :
    ∃ rows, harvest env subs cutoff cap ic climit = .ok rows := by
  obtain ⟨rows, k, hsubs⟩ :=
    harvestSubsE_ok env cutoff cap ic climit hsafe subs [] 0
  unfold harvest
  simp only [hsubs]
  exact ⟨sortRows rows, rfl⟩

/-- The trivially safe payload stream for the C4 witness. -/
def envC4ok : ℕ → JVal := fun _ => JVal.obj []

/-- C4 witness: the graceful theorem applied to a concrete safe stream,
    with comment inclusion on. -/
theorem claim_C4_witness :
    ∃ rows, harvest envC4ok ["a", "b"] 0 50 true 20 = .ok rows :=
  claim_C4_graceful envC4ok ["a", "b"] 0 50 true 20
    (by intro k; show payloadSafe 20 (JVal.obj []) = true; decide)

/-- The comment-augmented body: original body, newline, newline-joined
    comment bodies, stripped. -/
def augText (self : String) (cm : List String) : String :=
  pyStrip (self ++ "\n" ++ joinSep "\n" cm)

/-- A row whose keyword list, high-priority flag and score were all
    computed over some comment-augmented version of its own (unaugmented)
    selftext. -/
def commentScored (r : Row) : Prop :=
  ∃ cm : List String,
    r.matched_keywords
      = joinSep ";" (contains_keywords (r.title ++ "\n" ++ augText r.selftext cm) KEYWORDS)
    ∧ r.high_priority = high_priority (r.title ++ "\n" ++ augText r.selftext cm)
    ∧ r.eas_score = score_post r.title (augText r.selftext cm) r.score r.num_comments
    ∧ contains_keywords (r.title ++ "\n" ++ augText r.selftext cm) KEYWORDS ≠ []

/-- What a successfully built row contains: the passed title, the derived
    fields over the passed (possibly augmented) body, and a selftext
    re-read from the item itself. -/
theorem mkRowE_spec (p : JVal) (title body : String) (r : Row)
    (h : mkRowE p title body = .ok r) :
    r.title = title
    ∧ r.matched_keywords = joinSep ";" (contains_keywords (title ++ "\n" ++ body) KEYWORDS)
    ∧ r.high_priority = high_priority (title ++ "\n" ++ body)
    ∧ r.eas_score = score_post title body r.score r.num_comments
    ∧ ∀ l, p = JVal.obj l →
        pyStrOrEmpty (lookField l "selftext" (.str "")) = .ok r.selftext := by
  cases p with
  | obj l =>
    unfold mkRowE at h
    cases hI : createdIsoE (lookField l "created_utc" JVal.null) with
    | error e => simp only [hI] at h; exact Except.noConfusion h
    | ok iso =>
      simp only [hI] at h
      cases hS : pyStrOrEmpty (lookField l "selftext" (.str "")) with
      | error e => simp only [hS] at h; exact Except.noConfusion h
      | ok self =>
        simp only [hS] at h
        cases hP : lookField l "permalink" (.str "") with
        | str plink =>
          simp only [hP] at h
          cases h1 : pyFloat (pyOr (lookField l "score" .null) (.num 0)) with
          | error e => simp only [h1] at h; exact Except.noConfusion h
          | ok q1 =>
            simp only [h1] at h
            cases h2 : pyFloat (pyOr (lookField l "num_comments" .null) (.num 0)) with
            | error e => simp only [h2] at h; exact Except.noConfusion h
            | ok q2 =>
              simp only [h2] at h
              cases h
              refine ⟨rfl, rfl, rfl, rfl, ?_⟩
              intro l2 hl2
              injection hl2 with hl2
              subst hl2
              exact hS
        | null => simp only [hP] at h; exact Except.noConfusion h
        | bool b => simp only [hP] at h; exact Except.noConfusion h
        | num q => simp only [hP] at h; exact Except.noConfusion h
        | arr a => simp only [hP] at h; exact Except.noConfusion h
        | obj o => simp only [hP] at h; exact Except.noConfusion h
  | null => exact Except.noConfusion h
  | bool b => exact Except.noConfusion h
  | num q => exact Except.noConfusion h
  | str s => exact Except.noConfusion h
  | arr a => exact Except.noConfusion h

/-- A successful text extraction pins the item to a dict and its body to
    the selftext field. -/
theorem textExtractE_spec (p : JVal) (t b : String)
    (h : textExtractE p = .ok (t, b)) :
    ∃ l, p = JVal.obj l ∧ pyStrOrEmpty (lookField l "selftext" (.str "")) = .ok b := by
  unfold textExtractE at h
  split at h
  · exact Except.noConfusion h
  · rename_i traw heq1
    split at h
    · exact Except.noConfusion h
    · rename_i title heq2
      split at h
      · exact Except.noConfusion h
      · rename_i braw heq3
        split at h
        · exact Except.noConfusion h
        · rename_i body0 heq4
          cases p with
          | obj l =>
            refine ⟨l, rfl, ?_⟩
            rw [show jGetD (JVal.obj l) "selftext" (.str "")
              = .ok (lookField l "selftext" (.str "")) from rfl] at heq3
            injection heq3 with heq3
            rw [heq3]
            rw [heq4]
            injection h with h2
            rw [show b = body0 from by
              have := congrArg Prod.snd h2
              exact this.symm]
          | null => exact Except.noConfusion heq1
          | bool x => exact Except.noConfusion heq1
          | num x => exact Except.noConfusion heq1
          | str x => exact Except.noConfusion heq1
          | arr x => exact Except.noConfusion heq1

/-- Every row appended by the comment-including per-item loop is scored
    over its comment-augmented text. -/
theorem processPostsE_true_rows (env : ℕ → JVal) (climit : ℕ) :
    ∀ posts rows k rows2 k2,
      processPostsE env true climit posts rows k = .ok (rows2, k2) →
      (∀ r ∈ rows, commentScored r) →
      ∀ r ∈ rows2, commentScored r := by
  intro posts
  induction posts with
  | nil =>
    intro rows k rows2 k2 h hrows
    cases h
    exact hrows
  | cons p rest ih =>
    intro rows k rows2 k2 h hrows
    unfold processPostsE at h
    split at h
    · exact Except.noConfusion h
    · rename_i title body k3 heqT
      unfold itemTextE at heqT
      split at heqT
      · exact Except.noConfusion heqT
      · rename_i t0 b0 heqX
        rw [if_pos rfl] at heqT
        split at heqT
        · exact Except.noConfusion heqT
        · rename_i cs heqA
          injection heqT with htup
          have ht1 : t0 = title := congrArg Prod.fst htup
          have ht2 : pyStrip (b0 ++ "\n" ++ joinSep "\n" cs) = body :=
            congrArg (fun x => Prod.fst (Prod.snd x)) htup
          split at h
          · exact ih _ _ _ _ h hrows
          · rename_i hm
            split at h
            · exact Except.noConfusion h
            · rename_i row heqR
              apply ih _ _ _ _ h
              intro r2 hr2
              rcases List.mem_append.mp hr2 with hr2 | hr2
              · exact hrows r2 hr2
              · rw [List.mem_singleton.mp hr2]
                obtain ⟨hrt, hrm, hrh, hrs, hrself⟩ := mkRowE_spec _ _ _ _ heqR
                obtain ⟨l, hpobj, hbself⟩ := textExtractE_spec _ _ _ heqX
                have hb0 : b0 = row.selftext := by
                  have h2 := hrself l hpobj
                  rw [hbself] at h2
                  injection h2
                have hbody : body = augText row.selftext cs := by
                  rw [← ht2, hb0]
                  rfl
                refine ⟨cs, ?_, ?_, ?_, ?_⟩
                · rw [hrm, hrt, hbody]
                · rw [hrh, hrt, hbody]
                · rw [hrs, hrt, hbody]
                · rw [← hbody, hrt]
                  intro hc
                  rw [hc] at hm
                  exact hm rfl


/-- The per-source loop preserves the comment-scored property of every
    collected row when comment inclusion is on. -/
theorem harvestSubsE_true_rows (env : ℕ → JVal) (cutoff : ℚ) (cap : ℕ)
    (climit : ℕ) :
    ∀ subs rows k rows2 k2,
      harvestSubsE env cutoff cap true climit subs rows k = .ok (rows2, k2) →
      (∀ r ∈ rows, commentScored r) →
      ∀ r ∈ rows2, commentScored r := by
  intro subs
  induction subs with
  | nil =>
    intro rows k rows2 k2 h hrows
    cases h
    exact hrows
  | cons sub rest ih =>
    intro rows k rows2 k2 h hrows
    unfold harvestSubsE at h
    split at h
    · exact Except.noConfusion h
    · rename_i posts ka heqW
      split at h
      · exact Except.noConfusion h
      · rename_i rowsMid kb heqP
        exact ih _ _ _ _ h (processPostsE_true_rows env climit posts rows ka rowsMid kb heqP hrows)

/-- C9: with comment inclusion enabled, every row harvest emits keeps its
    original selftext (no comment bodies appended), while its matched
    keyword list, high-priority flag and score were all computed over the
    comment-augmented text built from that selftext. -/
theorem claim_C9_frame (env : ℕ → JVal) (subs : List String) (cutoff : ℚ)
    (cap : ℕ) (climit : ℕ) (res : List Row)
    (h : harvest env subs cutoff cap true climit = .ok res) :
    ∀ r ∈ res, commentScored r := by
  unfold harvest at h
  split at h
  · exact Except.noConfusion h
  · rename_i raw k heq
    cases h
    intro r hr
    have hr2 : r ∈ raw := (List.perm_insertionSort rowGe raw).mem_iff.mp hr
    exact harvestSubsE_true_rows env cutoff cap climit subs [] 0 raw k heq
      (by simp) r hr2

/-- The payload stream for the C9 witness: one matching item, then its
    comments payload whose single comment adds a keyword. -/
def envC9 : ℕ → JVal
  | 0 => mkListing
      [mkItem [("created_utc", .num 100), ("title", .str "gas leak downtown"),
               ("selftext", .str "details")]] .null
  | 1 => .arr [.null,
      .obj [("data", .obj [("children", .arr
        [.obj [("kind", .str "t1"),
               ("data", .obj [("body", .str "fire spreading")])]])])]]
  | _ => .obj []

/-- The concrete harvest output for the C9 witness. -/
def resC9 : List Row := (harvest envC9 ["s"] 10 5 true 20).toOption.getD []

/-- A placeholder row, used only as the headD default below. -/
def blankRow : Row :=
  { id := .null, created_utc := .null, created_iso := "", subreddit := .null,
    author := .null, title := "", selftext := "", url := .null, permalink := "",
    score := 0, num_comments := 0, comments_scanned := 0, matched_keywords := "",
    high_priority := false, eas_score := 0 }

/-- The one row of the C9 witness run. -/
def rowC9 : Row := resC9.headD blankRow

/-- C9 witness: the frame theorem applied to the row of a concrete
    comment-including run. -/
theorem claim_C9_witness : commentScored rowC9 :=
  claim_C9_frame envC9 ["s"] 10 5 20 resC9 (by with_unfolding_all rfl) rowC9
    (by with_unfolding_all exact List.mem_cons_self rowC9 [])

/-- The whole per-item step at include_comments = false, as a pure
    function of the item: `none` when the keyword filter rejects it, the
    built row when it matches. -/
def rowOfE (p : JVal) : Except String (Option Row) :=
  match textExtractE p with
  | .error e => .error e
  | .ok (title, body) =>
    if (contains_keywords (title ++ "\n" ++ body) KEYWORDS).isEmpty then .ok none
    else
      match mkRowE p title body with
      | .error e => .error e
      | .ok r => .ok (some r)

/-- rowOfE over a list of items, stopping at the first error. -/
def mapRowOfE : List JVal → Except String (List (Option Row))
  | [] => .ok []
  | p :: rest =>
    match rowOfE p with
    | .error e => .error e
    | .ok o =>
      match mapRowOfE rest with
      | .error e => .error e
      | .ok os => .ok (o :: os)

/-- All items the walker collects across the sources, in encounter
    order, with the final fetch index. -/
def collectPostsE (env : ℕ → JVal) (cutoff : ℚ) (cap : ℕ) :
    List String → ℕ → Except String (List JVal × ℕ)
  | [], k => .ok ([], k)
  | _ :: rest, k =>
    match list_new_posts_E env cutoff cap k with
    | .error e => .error e
    | .ok (posts, k2) =>
      match collectPostsE env cutoff cap rest k2 with
      | .error e => .error e
      | .ok (more, k3) => .ok (posts ++ more, k3)

/-- Without comment fetches, processing posts appends exactly the rows of
    the matching items, in order, and consumes no payloads. -/
theorem processPostsE_false_spec (env : ℕ → JVal) (climit : ℕ) :
    ∀ posts rows k rows2 k2,
      processPostsE env false climit posts rows k = .ok (rows2, k2) →
      k2 = k ∧ ∃ os, mapRowOfE posts = .ok os ∧ rows2 = rows ++ os.reduceOption := by
  intro posts
  induction posts with
  | nil =>
    intro rows k rows2 k2 h
    cases h
    exact ⟨rfl, [], rfl, by simp⟩
  | cons p rest ih =>
    intro rows k rows2 k2 h
    unfold processPostsE at h
    cases hX : textExtractE p with
    | error e =>
      have hT : itemTextE env false climit p k = .error e := by
        unfold itemTextE
        rw [hX]
      simp only [hT] at h
      exact Except.noConfusion h
    | ok tb =>
      obtain ⟨title, body⟩ := tb
      have hT : itemTextE env false climit p k = .ok (title, body, k) := by
        unfold itemTextE
        rw [hX]
        rfl
      simp only [hT] at h
      by_cases hm : (contains_keywords (title ++ "\n" ++ body) KEYWORDS).isEmpty = true
      · rw [if_pos hm] at h
        obtain ⟨hk2, os, hos, hrows2⟩ := ih rows k rows2 k2 h
        have hro : rowOfE p = .ok none := by
          unfold rowOfE
          simp only [hX]
          rw [if_pos hm]
        refine ⟨hk2, none :: os, ?_, ?_⟩
        · unfold mapRowOfE
          simp only [hro, hos]
        · rw [hrows2, List.reduceOption_cons_of_none]
      · rw [if_neg hm] at h
        cases hR : mkRowE p title body with
        | error e =>
          simp only [hR] at h
          exact Except.noConfusion h
        | ok row =>
          simp only [hR] at h
          obtain ⟨hk2, os, hos, hrows2⟩ := ih (rows ++ [row]) k rows2 k2 h
          have hro : rowOfE p = .ok (some row) := by
            unfold rowOfE
            simp only [hX]
            rw [if_neg hm]
            simp only [hR]
          refine ⟨hk2, some row :: os, ?_, ?_⟩
          · unfold mapRowOfE
            simp only [hro, hos]
          · rw [hrows2, List.reduceOption_cons_of_some, List.append_assoc]
            rfl

/-- mapRowOfE distributes over append on success. -/
theorem mapRowOfE_append (xs ys : List JVal) :
    ∀ a b, mapRowOfE xs = .ok a → mapRowOfE ys = .ok b →
      mapRowOfE (xs ++ ys) = .ok (a ++ b) := by
  induction xs with
  | nil =>
    intro a b hx hy
    cases hx
    simpa using hy
  | cons p rest ih =>
    intro a b hx hy
    rw [List.cons_append]
    unfold mapRowOfE at hx ⊢
    cases ho : rowOfE p with
    | error e =>
      simp only [ho] at hx
      exact Except.noConfusion hx
    | ok o =>
      simp only [ho] at hx ⊢
      cases hrest : mapRowOfE rest with
      | error e =>
        simp only [hrest] at hx
        exact Except.noConfusion hx
      | ok os =>
        simp only [hrest] at hx
        cases hx
        simp only [ih os b hrest hy]
        rfl

/-- The per-source loop at include_comments = false collects exactly the
    rows of the matching walked items, in encounter order. -/
theorem harvestSubsE_false_spec (env : ℕ → JVal) (cutoff : ℚ) (cap : ℕ)
    (climit : ℕ) :
    ∀ subs rows k rows2 k2,
      harvestSubsE env cutoff cap false climit subs rows k = .ok (rows2, k2) →
      ∃ posts os, collectPostsE env cutoff cap subs k = .ok (posts, k2)
        ∧ mapRowOfE posts = .ok os ∧ rows2 = rows ++ os.reduceOption := by
  intro subs
  induction subs with
  | nil =>
    intro rows k rows2 k2 h
    cases h
    exact ⟨[], [], rfl, rfl, by simp⟩
  | cons sub rest ih =>
    intro rows k rows2 k2 h
    unfold harvestSubsE at h
    cases hW : list_new_posts_E env cutoff cap k with
    | error e =>
      simp only [hW] at h
      exact Except.noConfusion h
    | ok pr1 =>
      obtain ⟨posts1, ka⟩ := pr1
      simp only [hW] at h
      cases hP : processPostsE env false climit posts1 rows ka with
      | error e =>
        simp only [hP] at h
        exact Except.noConfusion h
      | ok pr2 =>
        obtain ⟨rowsMid, kb⟩ := pr2
        simp only [hP] at h
        obtain ⟨hkb, os1, hos1, hmid⟩ :=
          processPostsE_false_spec env climit posts1 rows ka rowsMid kb hP
        subst hkb
        obtain ⟨posts2, os2, hcol, hos2, hrows2⟩ := ih rowsMid kb rows2 k2 h
        refine ⟨posts1 ++ posts2, os1 ++ os2, ?_,
          mapRowOfE_append posts1 posts2 os1 os2 hos1 hos2, ?_⟩
        · unfold collectPostsE
          simp only [hW, hcol]
        · rw [hrows2, hmid]
          simp [List.reduceOption_append]

/-- What a per-item result means: the item extracts to some text, and a
    row is produced exactly when that text matches the vocabulary. -/
theorem rowOfE_some_iff (p : JVal) (o : Option Row) (h : rowOfE p = .ok o) :
    ∃ title body, textExtractE p = .ok (title, body)
      ∧ (o.isSome = true ↔ contains_keywords (title ++ "\n" ++ body) KEYWORDS ≠ []) := by
  unfold rowOfE at h
  cases hX : textExtractE p with
  | error e =>
    simp only [hX] at h
    exact Except.noConfusion h
  | ok tb =>
    obtain ⟨title, body⟩ := tb
    simp only [hX] at h
    refine ⟨title, body, rfl, ?_⟩
    by_cases hm : (contains_keywords (title ++ "\n" ++ body) KEYWORDS).isEmpty = true
    · rw [if_pos hm] at h
      cases h
      constructor
      · intro hh
        simp at hh
      · intro hne
        exfalso
        apply hne
        cases hck : contains_keywords (title ++ "\n" ++ body) KEYWORDS with
        | nil => rfl
        | cons a as =>
          rw [hck] at hm
          simp at hm
    · rw [if_neg hm] at h
      cases hR : mkRowE p title body with
      | error e =>
        simp only [hR] at h
        exact Except.noConfusion h
      | ok row =>
        simp only [hR] at h
        cases h
        constructor
        · intro _ hc
          rw [hc] at hm
          exact hm rfl
        · intro _
          rfl

/-- Membership in a sorted-insert result. -/
theorem mem_insertStr (x y : String) : ∀ l, y ∈ insertStr x l ↔ y = x ∨ y ∈ l := by
  intro l
  induction l with
  | nil => simp [insertStr]
  | cons a as ih =>
    unfold insertStr
    by_cases hs : strLe x a = true
    · rw [if_pos hs]
      simp [List.mem_cons]
    · rw [if_neg hs]
      simp only [List.mem_cons, ih]
      tauto

/-- Sorting does not change membership. -/
theorem mem_sortStrs (y : String) : ∀ l, y ∈ sortStrs l ↔ y ∈ l := by
  intro l
  induction l with
  | nil => simp [sortStrs]
  | cons a as ih =>
    unfold sortStrs
    rw [mem_insertStr]
    simp [ih, List.mem_cons]

/-- Every matched keyword is drawn from the vocabulary. -/
theorem contains_keywords_mem (t : String) (kws : List String) :
    ∀ x ∈ contains_keywords t kws, x ∈ kws := by
  intro x hx
  unfold contains_keywords at hx
  rw [mem_sortStrs] at hx
  exact List.mem_of_mem_filter (List.dedup_subset _ hx)

/-- No vocabulary term is the empty string. -/
theorem KEYWORDS_ne_empty : ∀ x ∈ KEYWORDS, x ≠ "" := by decide

/-- Joining a list headed by a non-empty string is non-empty. -/
theorem joinSep_ne_empty (sep x : String) (xs : List String) (hx : x ≠ "") :
    joinSep sep (x :: xs) ≠ "" := by
  cases xs with
  | nil => exact hx
  | cons y rest =>
    intro hc
    apply hx
    have hdata := congrArg String.data hc
    simp only [String.data_append] at hdata
    have hx0 : x.data = [] := (List.append_eq_nil.mp
      ((List.append_eq_nil.mp hdata).1)).1
    cases x with
    | mk d =>
      cases hx0
      rfl

/-- A produced row really did match: its stored title and selftext match
    the vocabulary and its serialized keyword list is non-empty. -/
theorem rowOfE_some_spec (p : JVal) (r : Row) (h : rowOfE p = .ok (some r)) :
    contains_keywords (r.title ++ "\n" ++ r.selftext) KEYWORDS ≠ []
    ∧ r.matched_keywords ≠ "" := by
  unfold rowOfE at h
  cases hX : textExtractE p with
  | error e =>
    simp only [hX] at h
    exact Except.noConfusion h
  | ok tb =>
    obtain ⟨title, body⟩ := tb
    simp only [hX] at h
    by_cases hm : (contains_keywords (title ++ "\n" ++ body) KEYWORDS).isEmpty = true
    · rw [if_pos hm] at h
      injection h with h2
      exact Option.noConfusion h2
    · rw [if_neg hm] at h
      cases hR : mkRowE p title body with
      | error e =>
        simp only [hR] at h
        exact Except.noConfusion h
      | ok row =>
        simp only [hR] at h
        injection h with h2
        injection h2 with h2
        subst h2
        obtain ⟨hrt, hrm, _, _, hrself⟩ := mkRowE_spec _ _ _ _ hR
        obtain ⟨l, hpobj, hbself⟩ := textExtractE_spec _ _ _ hX
        have hb : body = row.selftext := by
          have h3 := hrself l hpobj
          rw [hbself] at h3
          injection h3
        subst hb
        subst hrt
        have hne : contains_keywords (row.title ++ "\n" ++ row.selftext) KEYWORDS ≠ [] := by
          intro hc
          rw [hc] at hm
          exact hm rfl
        refine ⟨hne, ?_⟩
        rw [hrm]
        cases hck : contains_keywords (row.title ++ "\n" ++ row.selftext) KEYWORDS with
        | nil => exact absurd hck hne
        | cons a as =>
          exact joinSep_ne_empty ";" a as
            (KEYWORDS_ne_empty a
              (contains_keywords_mem _ KEYWORDS a (by rw [hck]; exact List.mem_cons_self a as)))

/-- mapRowOfE relates items and results pointwise. -/
theorem mapRowOfE_forall2 : ∀ posts os, mapRowOfE posts = .ok os →
    List.Forall₂ (fun p o => rowOfE p = .ok o) posts os := by
  intro posts
  induction posts with
  | nil =>
    intro os h
    cases h
    exact List.Forall₂.nil
  | cons p rest ih =>
    intro os h
    unfold mapRowOfE at h
    cases ho : rowOfE p with
    | error e =>
      simp only [ho] at h
      exact Except.noConfusion h
    | ok o =>
      simp only [ho] at h
      cases hrest : mapRowOfE rest with
      | error e =>
        simp only [hrest] at h
        exact Except.noConfusion h
      | ok os2 =>
        simp only [hrest] at h
        cases h
        exact List.Forall₂.cons ho (ih os2 hrest)

/-- Each element on the right of a Forall₂ has a related witness on the
    left. -/
theorem f2_mem_right {α β : Type} {R : α → β → Prop} :
    ∀ {l1 : List α} {l2 : List β}, List.Forall₂ R l1 l2 →
      ∀ b ∈ l2, ∃ a ∈ l1, R a b := by
  intro l1 l2 hf
  induction hf with
  | nil =>
    intro b hb
    exact absurd hb (List.not_mem_nil b)
  | cons hR hrest ih =>
    intro b hb
    rcases List.mem_cons.mp hb with hb | hb
    · subst hb
      exact ⟨_, List.mem_cons_self _ _, hR⟩
    · obtain ⟨a, ha, hr⟩ := ih b hb
      exact ⟨a, List.mem_cons_of_mem _ ha, hr⟩

/-- C7: with comment augmentation off, the rows harvest returns are, up to
    the final sort, exactly one row per walked item whose extracted
    title+newline+body text has a non-empty matched-keyword set — an item
    contributes a row iff its text matches — and every emitted row has a
    non-empty matched keyword set over its own stored title and selftext. -/
theorem claim_C7_matched_iff (env : ℕ → JVal) (subs : List String) (cutoff : ℚ)
    (cap : ℕ) (climit : ℕ) (res : List Row)
    (h : harvest env subs cutoff cap false climit = .ok res) :
    (∀ r ∈ res, contains_keywords (r.title ++ "\n" ++ r.selftext) KEYWORDS ≠ []
      ∧ r.matched_keywords ≠ "")
    ∧ ∃ posts os k,
        collectPostsE env cutoff cap subs 0 = .ok (posts, k)
        ∧ mapRowOfE posts = .ok os
        ∧ res.Perm os.reduceOption
        ∧ List.Forall₂ (fun p o => rowOfE p = .ok o
            ∧ ∃ title body, textExtractE p = .ok (title, body)
              ∧ (o.isSome = true
                ↔ contains_keywords (title ++ "\n" ++ body) KEYWORDS ≠ []))
          posts os := by
  unfold harvest at h
  split at h
  · exact Except.noConfusion h
  · rename_i raw k heq
    cases h
    obtain ⟨posts, os, hcol, hos, hraw⟩ :=
      harvestSubsE_false_spec env cutoff cap climit subs [] 0 raw k heq
    have hraw2 : raw = os.reduceOption := by simpa using hraw
    have hperm : (sortRows raw).Perm os.reduceOption :=
      hraw2 ▸ List.perm_insertionSort rowGe raw
    have hf2 := mapRowOfE_forall2 posts os hos
    refine ⟨?_, posts, os, k, hcol, hos, hperm,
      hf2.imp (fun a b hpo => ⟨hpo, rowOfE_some_iff a b hpo⟩)⟩
    intro r hr
    have hr2 : r ∈ os.reduceOption := hperm.mem_iff.mp hr
    have hr3 : some r ∈ os := List.reduceOption_mem_iff.mp hr2
    obtain ⟨p, _, hro⟩ := f2_mem_right hf2 (some r) hr3
    exact rowOfE_some_spec p r hro

/-- The payload stream for the C7 witness: one page with a matching and a
    non-matching item. -/
def envC7 : ℕ → JVal
  | 0 => mkListing
      [mkItem [("created_utc", .num 100), ("title", .str "sinkhole on King St")],
       mkItem [("created_utc", .num 90), ("title", .str "lost cat")]] .null
  | _ => .obj []

/-- The concrete harvest output for the C7 witness. -/
def resC7 : List Row := (harvest envC7 ["s"] 10 5 false 20).toOption.getD []

/-- C7 witness: the matched-iff theorem applied to a concrete run. -/
theorem claim_C7_witness :
    (∀ r ∈ resC7, contains_keywords (r.title ++ "\n" ++ r.selftext) KEYWORDS ≠ []
      ∧ r.matched_keywords ≠ "")
    ∧ ∃ posts os k,
        collectPostsE envC7 10 5 ["s"] 0 = .ok (posts, k)
        ∧ mapRowOfE posts = .ok os
        ∧ resC7.Perm os.reduceOption
        ∧ List.Forall₂ (fun p o => rowOfE p = .ok o
            ∧ ∃ title body, textExtractE p = .ok (title, body)
              ∧ (o.isSome = true
                ↔ contains_keywords (title ++ "\n" ++ body) KEYWORDS ≠ []))
          posts os :=
  claim_C7_matched_iff envC7 ["s"] 10 5 20 resC7 (by with_unfolding_all rfl)

end RedditExtractor
